import Mathlib

set_option autoImplicit false

/-!
Shallow embedding of the core of the agenda-ts performance fork: the job
repository operations (`getNextJobToRun`, `batchGetNextJobsToRun`, `lockJob`,
`unlockJob`, `unlockJobs` from `dist/JobDbRepository.js`), the retry executor
(`dist/utils/retryWithBackoff.js`), the local ready queue
(`src/JobProcessingQueue.ts`) and the processor bookkeeping
(`dist/JobProcessor.js`).  Documents are lists of records, instants are `Int`,
Mongo `null`/missing fields are `Option.none`.
-/

namespace AgendaFork

/-- A persistent job document (§3 of the spec; the fields used by the claims).
`nextRunAt`/`lockedAt` are `none` when the Mongo field is `null` or missing. -/
structure JobDoc where
  _id : Nat
  name : String
  priority : Int
  nextRunAt : Option Int
  lockedAt : Option Int
  disabled : Bool
  failCount : Nat
deriving DecidableEq, Repr

/-- Mongo `{field: {$lte: bound}}` on a date field: `null`/missing never
matches a `$lte` comparison against a date. -/
def dateLE : Option Int → Int → Bool
  | none, _ => false
  | some v, b => decide (v ≤ b)

/-- The `JOB_PROCESS_WHERE_QUERY` of `getNextJobToRun` and
`batchGetNextJobsToRun` (dist/JobDbRepository.js lines 90-102 and 153-165):
`name` equals the requested name, `disabled: {$ne: true}`, and
`$or` of (`lockedAt == null` and `nextRunAt <= nextScanAt`) or
(`lockedAt <= lockDeadline`). -/
def jobEligible (jobName : String) (nextScanAt lockDeadline : Int) (d : JobDoc) : Bool :=
  d.name == jobName && !d.disabled &&
    ((d.lockedAt == none && dateLE d.nextRunAt nextScanAt) || dateLE d.lockedAt lockDeadline)

/-- The repository sort `{ nextRunAt: 1, priority: -1 }`
(dist/JobDbRepository.js line 18): `a` strictly precedes `b` when its
`nextRunAt` is smaller (Mongo sorts `null` before any date ascending), or the
`nextRunAt` tie is broken by larger `priority`. -/
def sortLT (a b : JobDoc) : Bool :=
  match a.nextRunAt, b.nextRunAt with
  | none, none => decide (b.priority < a.priority)
  | none, some _ => true
  | some _, none => false
  | some x, some y => decide (x < y) || (decide (x = y) && decide (b.priority < a.priority))

/-- Pairs each element with its position, starting at `n`. -/
def withIdxFrom {α : Type} (n : Nat) : List α → List (Nat × α)
  | [] => []
  | x :: xs => (n, x) :: withIdxFrom (n + 1) xs

/-- The document a sorted `findOneAndUpdate` acts on: the first (in collection
order) among the sort-minimal candidates. -/
def pickBest : List (Nat × JobDoc) → Option (Nat × JobDoc)
  | [] => none
  | x :: xs =>
    match pickBest xs with
    | none => some x
    | some y => if sortLT y.2 x.2 then some y else some x

/-- The `JOB_PROCESS_SET_QUERY` update `{ $set: { lockedAt: now } }`. -/
def lockStamp (now : Int) (d : JobDoc) : JobDoc := { d with lockedAt := some now }

/-- Embeds `getNextJobToRun` (dist/JobDbRepository.js lines 149-184): a
`findOneAndUpdate` with the eligibility query, the `(nextRunAt ASC,
priority DESC)` sort, `$set lockedAt = now` and `returnDocument: 'after'`.
Returns the updated record (or `none`) together with the new collection. -/
def getNextJobToRun (docs : List JobDoc) (jobName : String)
    (nextScanAt lockDeadline now : Int) : Option JobDoc × List JobDoc :=
  match pickBest ((withIdxFrom 0 docs).filter
      (fun p => jobEligible jobName nextScanAt lockDeadline p.2)) with
  | none => (none, docs)
  | some (i, d) => (some (lockStamp now d), docs.set i (lockStamp now d))

/-- Insertion step of the model of the aggregation `$sort`. -/
def insSorted (x : JobDoc) : List JobDoc → List JobDoc
  | [] => [x]
  | y :: ys => if sortLT y x then y :: insSorted x ys else x :: y :: ys

/-- Model of the aggregation `$sort { nextRunAt: 1, priority: -1 }` stage. -/
def sortJobs : List JobDoc → List JobDoc
  | [] => []
  | x :: xs => insSorted x (sortJobs xs)

/-- Phase 1 of `batchGetNextJobsToRun` (dist/JobDbRepository.js lines
110-115): the aggregation pipeline `$match` eligibility, `$sort`, and
`$limit: batchSize`. -/
def batchPhase1 (docs : List JobDoc) (jobName : String) (batchSize : Nat)
    (nextScanAt lockDeadline : Int) : List JobDoc :=
  (sortJobs (docs.filter (jobEligible jobName nextScanAt lockDeadline))).take batchSize

/-- The phase-2 re-check of `batchGetNextJobsToRun` (dist/JobDbRepository.js
lines 125-128): `$or` of `lockedAt == null` or `lockedAt <= lockDeadline`. -/
def stillUnlocked (lockDeadline : Int) (d : JobDoc) : Bool :=
  d.lockedAt == none || dateLE d.lockedAt lockDeadline

/-- Embeds `batchGetNextJobsToRun` (dist/JobDbRepository.js lines 86-148):
phase 1 selects up to `batchSize` eligible documents in sort order; phase 2 is
an `updateMany` setting `lockedAt = now` on those of the selected ids that are
still unlocked or expired; phase 3, entered only when `modifiedCount > 0`,
re-reads the documents among the selected ids that carry `lockedAt == now` and
returns them in the phase-1 order.  Returns the list together with the new
collection. -/
def batchGetNextJobsToRun (docs : List JobDoc) (jobName : String) (batchSize : Nat)
    (nextScanAt lockDeadline now : Int) : List JobDoc × List JobDoc :=
  let availableJobs := batchPhase1 docs jobName batchSize nextScanAt lockDeadline
  if availableJobs.isEmpty then ([], docs) else
  let jobIds := availableJobs.map (fun d => d._id)
  let docs2 := docs.map (fun d =>
    if jobIds.contains d._id && stillUnlocked lockDeadline d then lockStamp now d else d)
  let modifiedCount := (docs.filter (fun d =>
    (jobIds.contains d._id && stillUnlocked lockDeadline d) && !(d.lockedAt == some now))).length
  if 0 < modifiedCount then
    let lockedJobs := docs2.filter (fun d => jobIds.contains d._id && d.lockedAt == some now)
    (availableJobs.filterMap (fun o => lockedJobs.find? (fun l => l._id == o._id)), docs2)
  else ([], docs2)

/-- Embeds `lockJob` (dist/JobDbRepository.js lines 62-85): `findOneAndUpdate`
on `{_id, name, lockedAt: null, disabled: {$ne: true}}` setting
`lockedAt = now`. -/
def lockJobDb (docs : List JobDoc) (jid : Nat) (jname : String) (now : Int) :
    Option JobDoc × List JobDoc :=
  match pickBest ((withIdxFrom 0 docs).filter
      (fun p => p.2._id == jid && p.2.name == jname && p.2.lockedAt == none && !p.2.disabled)) with
  | none => (none, docs)
  | some (i, d) => (some (lockStamp now d), docs.set i (lockStamp now d))

/-- Embeds `unlockJob` (dist/JobDbRepository.js lines 52-55): `updateOne` on
`{_id: jid, nextRunAt: {$ne: null}}` with `$unset lockedAt`. -/
def unlockJob (docs : List JobDoc) (jid : Nat) : List JobDoc :=
  docs.map (fun d =>
    if d._id == jid && !(d.nextRunAt == none) then { d with lockedAt := none } else d)

/-- Embeds `unlockJobs` (dist/JobDbRepository.js lines 59-61): `updateMany` on
`{_id: {$in: jobIds}, nextRunAt: {$ne: null}}` with `$unset lockedAt`. -/
def unlockJobs (docs : List JobDoc) (jobIds : List Nat) : List JobDoc :=
  docs.map (fun d =>
    if jobIds.contains d._id && !(d.nextRunAt == none) then { d with lockedAt := none } else d)

/-! Retry executor, from dist/utils/retryWithBackoff.js. -/

/-- The shape of a store error as inspected by `defaultShouldRetry`.  The
whole error value is `Option ErrRec`: `none` models a falsy thrown value
(`if (!error) return false`). -/
structure ErrRec where
  code : Option Int
  codeName : Option String
  message : Option String
deriving DecidableEq, Repr

/-- JS `String.prototype.startsWith` over characters: `strStarts needle hay`. -/
def strStarts : List Char → List Char → Bool
  | [], _ => true
  | _ :: _, [] => false
  | c :: cs, d :: ds => c == d && strStarts cs ds

/-- JS `String.prototype.includes` over characters: `strContains needle hay`. -/
def strContains (needle : List Char) : List Char → Bool
  | [] => needle.isEmpty
  | c :: rest => strStarts needle (c :: rest) || strContains needle rest

/-- Embeds `defaultShouldRetry` (dist/utils/retryWithBackoff.js lines 9-18):
retry on duplicate key (`code 11000`), write conflict (`codeName
"WriteConflict"` or `code 112`), or a message containing `"WriteConflict"` or
`"duplicate key"`; a falsy error is never retried. -/
def defaultShouldRetry : Option ErrRec → Bool
  | none => false
  | some e =>
    e.code == some 11000 ||
    e.codeName == some "WriteConflict" ||
    e.code == some 112 ||
    (match e.message with
     | some m => strContains "WriteConflict".toList m.toList
     | none => false) ||
    (match e.message with
     | some m => strContains "duplicate key".toList m.toList
     | none => false)

/-- Loop body of `retryWithBackoff` (dist/utils/retryWithBackoff.js lines
30-61).  `op k` is the outcome of the `k`-th invocation of the operation;
`fuel = maxRetries - attempt` counts the attempts still allowed after the
current one.  With no fuel left (`attempt === maxRetries`) the outcome of the
invocation is returned either way; otherwise an error is rethrown immediately
when `shouldRetry` rejects it, and the loop continues (after the backoff
sleep, irrelevant to the result) when it accepts it.  The second component
counts how many times the operation was invoked in total. -/
def retryLoop {ε α : Type} (op : Nat → Except ε α) (shouldRetry : ε → Bool) :
    Nat → Nat → Except ε α × Nat
  | attempt, 0 => (op attempt, attempt + 1)
  | attempt, fuel + 1 =>
    match op attempt with
    | .ok a => (.ok a, attempt + 1)
    | .error e =>
      if shouldRetry e then retryLoop op shouldRetry (attempt + 1) fuel
      else (.error e, attempt + 1)

/-- Embeds `retryWithBackoff` (dist/utils/retryWithBackoff.js lines 27-64):
runs attempts `0..maxRetries` until a success or a non-retryable or final
error.  Returns the propagated outcome and the number of invocations. -/
def retryWithBackoff {ε α : Type} (op : Nat → Except ε α) (maxRetries : Nat)
    (shouldRetry : ε → Bool) : Except ε α × Nat :=
  retryLoop op shouldRetry 0 maxRetries

/-- Modelled from the spec: the *conflict-class* predicate in the words of
§4.1/§7 — store code 11000, store code 112, `codeName == "WriteConflict"`, or
an error message containing "WriteConflict" or "duplicate key".  Compared
against the source's `defaultShouldRetry`. -/
def specConflictClass (e : Option ErrRec) : Prop :=
  ∃ r, e = some r ∧
    (r.code = some 11000 ∨ r.code = some 112 ∨ r.codeName = some "WriteConflict" ∨
      (∃ m, r.message = some m ∧
        (strContains "WriteConflict".toList m.toList = true ∨
         strContains "duplicate key".toList m.toList = true)))

/-! Local ready queue, from src/JobProcessingQueue.ts. -/

/-- Default `maxQueueSize` of the `JobProcessingQueue` constructor
(src/JobProcessingQueue.ts line 13). -/
def defaultMaxQueueSize : Nat := 10000

/-- Payload of the `queueOverflow` event (src/JobProcessingQueue.ts
lines 71-75). -/
structure OverflowEvent where
  jobName : String
  queueSize : Nat
  maxSize : Nat
deriving DecidableEq, Repr

/-- The `findIndex` predicate of `insert` (src/JobProcessingQueue.ts lines
78-94): an element matches when both `nextRunAt` are present and the
element's is `<=` the new job's, with a `nextRunAt` tie requiring the
element's priority to be `>=` the new job's. -/
def insertMatch (job elem : JobDoc) : Bool :=
  match elem.nextRunAt, job.nextRunAt with
  | some te, some tj =>
    if te ≤ tj then (if te = tj then decide (job.priority ≤ elem.priority) else true) else false
  | _, _ => false

/-- JS `Array.prototype.findIndex` (as an option instead of `-1`),
accumulating the position. -/
def findIdxFrom {α : Type} (p : α → Bool) : Nat → List α → Option Nat
  | _, [] => none
  | i, x :: xs => if p x then some i else findIdxFrom p (i + 1) xs

/-- Embeds `insert` (src/JobProcessingQueue.ts lines 66-103): reject and emit
`queueOverflow` when the queue is at capacity; otherwise splice the job in
before the first matching element, or `unshift` it to the left end when no
element matches.  Returns the inserted flag, the new queue and the emitted
events. -/
def queueInsert (maxQueueSize : Nat) (q : List JobDoc) (job : JobDoc) :
    Bool × List JobDoc × List OverflowEvent :=
  if maxQueueSize ≤ q.length then
    (false, q, [⟨job.name, q.length, maxQueueSize⟩])
  else
    match findIdxFrom (insertMatch job) 0 q with
    | none => (true, job :: q, [])
    | some i => (true, q.take i ++ job :: q.drop i, [])

/-- Embeds `pop` (src/JobProcessingQueue.ts lines 30-32), i.e.
`Array.prototype.pop`: return and remove the last (rightmost) element. -/
def queuePop : List JobDoc → Option JobDoc × List JobDoc
  | [] => (none, [])
  | [x] => (some x, [])
  | x :: y :: xs =>
    let r := queuePop (y :: xs)
    (r.1, x :: r.2)

/-! Processor bookkeeping, from dist/JobProcessor.js. -/

/-- The dual array+map tracking used for `runningJobs`/`runningJobsMap`,
`lockedJobs`/`lockedJobsMap` and `jobsToLock`/`jobsToLockMap`
(dist/JobProcessor.js lines 488-570).  The JS `Map` keyed by
`job.attrs._id?.toString()` is an insertion-ordered association list. -/
structure Tracked (α : Type) where
  arr : List α
  mp : List (Nat × α)
deriving DecidableEq, Repr

/-- JS `Map.prototype.has`. -/
def hasKey {α : Type} (mp : List (Nat × α)) (k : Nat) : Bool :=
  mp.any (fun p => p.1 == k)

/-- Embeds `addRunningJob` / `addLockedJob` / `addJobToLock`
(dist/JobProcessor.js lines 488-495, 518-525, 546-553): when the job has an
id that is not yet in the map, push it on the array and set it in the map;
otherwise leave both untouched. -/
def addTracked {α : Type} (getId : α → Option Nat) (t : Tracked α) (j : α) : Tracked α :=
  match getId j with
  | none => t
  | some i =>
    if hasKey t.mp i then t
    else { arr := t.arr ++ [j], mp := t.mp ++ [(i, j)] }

/-- Embeds `removeRunningJob` / `removeLockedJob` / `removeJobToLock`
(dist/JobProcessor.js lines 499-514, 529-542, 557-570): delete the id from
the map; when that removed an entry, also splice the first array element with
that id; report whether the map deletion removed something. -/
def removeTracked {α : Type} (getId : α → Option Nat) (t : Tracked α) (j : α) :
    Tracked α × Bool :=
  match getId j with
  | none => (t, false)
  | some i =>
    if hasKey t.mp i then
      ({ arr := t.arr.eraseP (fun x => getId x == some i),
         mp := t.mp.filter (fun p => !(p.1 == i)) }, true)
    else (t, false)

/-- Consistency of the dual tracking: the array is the map's value column,
every entry is keyed by its own id, and no id appears twice. -/
def TrackedInv {α : Type} (getId : α → Option Nat) (t : Tracked α) : Prop :=
  t.arr = t.mp.map (fun p => p.2) ∧
  (∀ p ∈ t.mp, getId p.2 = some p.1) ∧
  (t.mp.map (fun p => p.1)).Nodup

/-- Id projection for job documents used by the processor's tracking
(`job.attrs._id?.toString()`; documents read back from the store always carry
an id). -/
def jobGetId (d : JobDoc) : Option Nat := some d._id

/-- Per-name status bucket `jobStatus[name]` (dist/JobProcessor.js). -/
structure StatusRec where
  locked : Int
  running : Int
  lockLimitReached : Int
deriving DecidableEq, Repr

/-- The bucket created on first touch by `updateStatus`
(dist/JobProcessor.js lines 474-483). -/
def statusInit : StatusRec := ⟨0, 0, 0⟩

/-- Embeds `updateStatus` (dist/JobProcessor.js lines 474-484): create the
bucket when missing, then apply the field increment `f`. -/
def updateStatus (js : List (String × StatusRec)) (name : String)
    (f : StatusRec → StatusRec) : List (String × StatusRec) :=
  if js.any (fun p => p.1 == name) then
    js.map (fun p => if p.1 == name then (p.1, f p.2) else p)
  else js ++ [(name, f statusInit)]

/-- Lookup of `jobStatus[name]`. -/
def getStatus (js : List (String × StatusRec)) (name : String) : Option StatusRec :=
  (js.find? (fun p => p.1 == name)).map (fun p => p.2)

/-- Embeds `shouldLock` (dist/JobProcessor.js lines 133-148): true unless the
global lock limit (`totalLockLimit`, 0 meaning no limit) is reached by
`lockedJobs.length`, or the per-name `lockLimit` (0 meaning no limit) is
reached by `jobStatus[name].locked`. -/
def shouldLock (defsLockLimit : String → Nat) (totalLockLimit : Nat)
    (lockedLen : Nat) (js : List (String × StatusRec)) (name : String) : Bool :=
  let globalHit := decide (totalLockLimit ≠ 0) && decide (totalLockLimit ≤ lockedLen)
  let nameHit :=
    match getStatus js name with
    | some s => decide (defsLockLimit name ≠ 0) && decide ((defsLockLimit name : Int) ≤ s.locked)
    | none => false
  !(globalHit || nameHit)

/-- State touched by the dispatch branch of claim C5: the store, the
`lockedJobs` tracking and the `jobStatus` buckets. -/
structure DispatchState where
  db : List JobDoc
  lockedJobs : Tracked JobDoc
  jobStatus : List (String × StatusRec)
deriving DecidableEq, Repr

/-- Embeds the `runIn > this.processEvery` guard of `jobProcessing`
(dist/JobProcessor.js lines 359-360) for the selected job. -/
def tooFarInFuture (processEvery now : Int) (job : JobDoc) : Bool :=
  match job.nextRunAt with
  | none => false
  | some t => decide (processEvery < t - now)

/-- Embeds the body of the `runIn > this.processEvery` branch of
`jobProcessing` (dist/JobProcessor.js lines 361-367): `removeLockedJob(job)`
(throwing the invariant error when the job is not tracked) and
`updateStatus(name, 'locked', -1)`.  The branch performs no repository
call: the store is left untouched. -/
def dispatchTooFarBranch (st : DispatchState) (job : JobDoc) : Except String DispatchState :=
  let r := removeTracked jobGetId st.lockedJobs job
  if !r.2 then .error "cannot find job in locked jobs queue?"
  else .ok { st with
    lockedJobs := r.1,
    jobStatus := updateStatus st.jobStatus job.name (fun s => { s with locked := s.locked - 1 }) }

/-- State touched by one iteration of `lockOnTheFly`
(dist/JobProcessor.js lines 169-233).  `jobsToLock` models the
`this.jobsToLock` array (the cited lines read and assign the array directly,
bypassing `jobsToLockMap`). -/
structure OnTheFlyState where
  db : List JobDoc
  jobsToLock : List JobDoc
  isJobQueueFilling : List String
  lockedJobs : Tracked JobDoc
  jobQueue : List JobDoc
  jobStatus : List (String × StatusRec)
deriving DecidableEq, Repr

/-- Embeds one iteration of `lockOnTheFly` (dist/JobProcessor.js lines
182-226): pop the last pending claim intent; skip while the name's queue is
filling; on a failed `shouldLock` check bump `lockLimitReached` and clear the
whole `jobsToLock` buffer; otherwise lock in the store, and after the lock
either re-check `shouldLock` (releasing the lock and clearing the buffer on
failure) or account and enqueue the job.  `interfere` is the interleaving
allowed at the `await lockJob` suspension point; the fire-and-forget
`jobProcessing()` dispatch call, which does not touch `jobsToLock`, is not
modelled.  The reentrancy guard and trailing recursion are outside this
single iteration. -/
def lockOnTheFlyStep (defsLockLimit : String → Nat) (totalLockLimit : Nat) (now : Int)
    (interfere : OnTheFlyState → OnTheFlyState) (maxQueueSize : Nat)
    (st : OnTheFlyState) : Except String OnTheFlyState :=
  match st.jobsToLock.getLast? with
  | none => .ok st
  | some job =>
    let st1 : OnTheFlyState := { st with jobsToLock := st.jobsToLock.dropLast }
    if st1.isJobQueueFilling.contains job.name then .ok st1
    else if !(shouldLock defsLockLimit totalLockLimit st1.lockedJobs.arr.length st1.jobStatus job.name) then
      .ok { st1 with
        jobStatus := updateStatus st1.jobStatus job.name
          (fun s => { s with lockLimitReached := s.lockLimitReached + 1 }),
        jobsToLock := [] }
    else
      let lockRes := lockJobDb st1.db job._id job.name now
      let st2 := interfere { st1 with db := lockRes.2 }
      match lockRes.1 with
      | none => .ok st2
      | some resp =>
        if resp.name ≠ job.name then .error "got different job name"
        else if !(shouldLock defsLockLimit totalLockLimit st2.lockedJobs.arr.length st2.jobStatus resp.name) then
          .ok { st2 with
            jobStatus := updateStatus st2.jobStatus resp.name
              (fun s => { s with lockLimitReached := s.lockLimitReached + 1 }),
            db := unlockJob st2.db resp._id,
            jobsToLock := [] }
        else
          .ok { st2 with
            jobStatus := updateStatus st2.jobStatus resp.name
              (fun s => { s with locked := s.locked + 1 }),
            lockedJobs := addTracked jobGetId st2.lockedJobs resp,
            jobQueue := (queueInsert maxQueueSize st2.jobQueue resp).2.1 }

/-! Concrete instances used by witnesses and counterexamples. -/

/-- Stale-locked document used by the claim C1 witness. -/
def c1Doc : JobDoc := ⟨1, "A", 0, some 3, some 0, false, 0⟩

/-- A non-conflict store error (plain code 1). -/
def plainErr : Option ErrRec := some ⟨some 1, none, none⟩

/-- A write-conflict store error (code 112). -/
def conflictErr : Option ErrRec := some ⟨some 112, none, none⟩

/-- Operation whose first attempt fails with a non-conflict error and whose
second attempt would succeed. -/
def c3Op : Nat → Except (Option ErrRec) Nat :=
  fun n => if n = 0 then .error plainErr else .ok 42

/-- Operation failing the first two attempts with write conflicts and
succeeding on the third (scenario 6 of §8). -/
def c4Op : Nat → Except (Option ErrRec) Nat :=
  fun n => if n < 2 then .error conflictErr else .ok 7

/-- Locked document whose dispatch is dropped as too far in the future. -/
def c5Doc : JobDoc := ⟨1, "A", 0, some 100, some 5, false, 0⟩

/-- Processor state tracking `c5Doc` as locked. -/
def c5St : DispatchState := ⟨[c5Doc], ⟨[c5Doc], [(1, c5Doc)]⟩, [("A", ⟨1, 0, 0⟩)]⟩

/-- Earlier-scheduled job of the claim C6 counterexample. -/
def c6JobA : JobDoc := ⟨1, "A", 0, some 1, none, false, 0⟩

/-- Later-scheduled job of the claim C6 counterexample. -/
def c6JobB : JobDoc := ⟨2, "A", 0, some 2, none, false, 0⟩

/-- The ready queue after inserting `c6JobA` then `c6JobB`. -/
def c6Queue : List JobDoc :=
  (queueInsert defaultMaxQueueSize (queueInsert defaultMaxQueueSize [] c6JobA).2.1 c6JobB).2.1

/-- Job used by the claim C7 witness. -/
def c7Job : JobDoc := ⟨3, "B", 1, some 4, none, false, 0⟩

/-- Stale-locked document of the claim C8 counterexample. -/
def c8Doc : JobDoc := ⟨7, "A", 0, some 1, some 0, false, 0⟩

/-- Unlocked due document used by the claim C9 witness. -/
def c9Doc : JobDoc := ⟨4, "C", 0, some 1, none, false, 0⟩

/-- Lock-on-the-fly state with `c9Doc` pending and its name at its lock
limit. -/
def c9St : OnTheFlyState := ⟨[c9Doc], [c9Doc], [], ⟨[], []⟩, [], [("C", ⟨1, 0, 0⟩)]⟩

/-- Job used by the claim C10 witness. -/
def c10Job : JobDoc := ⟨9, "D", 0, none, none, false, 0⟩

end AgendaFork

namespace AgendaFork

/-! ## Order lemmas for the repository sort -/

theorem sortLT_irrefl (a : JobDoc) : sortLT a a = false := by
  unfold sortLT
  cases h : a.nextRunAt <;> simp

theorem sortLT_asymm {a b : JobDoc} (h : sortLT a b = true) : sortLT b a = false := by
  unfold sortLT at *
  cases ha : a.nextRunAt <;> cases hb : b.nextRunAt <;> simp_all <;> omega

theorem sortLT_cross {a b c : JobDoc} (h1 : sortLT a b = true) (h2 : sortLT a c = false) :
    sortLT c b = true := by
  unfold sortLT at *
  cases ha : a.nextRunAt <;> cases hb : b.nextRunAt <;> cases hc : c.nextRunAt <;>
    simp_all <;> omega

/-! ## Lemmas about the one-document picker -/

theorem pickBest_eq_none {l : List (Nat × JobDoc)} : pickBest l = none ↔ l = [] := by
  cases l with
  | nil => simp [pickBest]
  | cons x xs =>
    simp only [pickBest]
    cases h : pickBest xs <;> simp [h]
    split <;> simp


theorem pickBest_mem : ∀ (l : List (Nat × JobDoc)) (x : Nat × JobDoc),
    pickBest l = some x → x ∈ l := by
  intro l
  induction l with
  | nil => intro x h; simp [pickBest] at h
  | cons z zs ih =>
    intro x h
    cases hz : pickBest zs with
    | none =>
      simp only [pickBest, hz] at h
      obtain rfl : z = x := Option.some.injEq z x |>.mp h
      exact List.mem_cons_self z zs
    | some y =>
      simp only [pickBest, hz] at h
      split at h
      · obtain rfl : y = x := Option.some.injEq y x |>.mp h
        exact List.mem_cons_of_mem _ (ih _ hz)
      · obtain rfl : z = x := Option.some.injEq z x |>.mp h
        exact List.mem_cons_self z zs

theorem pickBest_min : ∀ (l : List (Nat × JobDoc)) (x : Nat × JobDoc),
    pickBest l = some x → ∀ y ∈ l, sortLT y.2 x.2 = false := by
  intro l
  induction l with
  | nil => intro x h; simp [pickBest] at h
  | cons z zs ih =>
    intro x h
    cases hz : pickBest zs with
    | none =>
      have hnil : zs = [] := pickBest_eq_none.mp hz
      simp only [pickBest, hz] at h
      obtain rfl : z = x := Option.some.injEq z x |>.mp h
      subst hnil
      intro y hy
      rcases List.mem_singleton.mp hy with rfl
      exact sortLT_irrefl _
    | some y0 =>
      simp only [pickBest, hz] at h
      split at h
      case isTrue hlt =>
        obtain rfl : y0 = x := Option.some.injEq y0 x |>.mp h
        intro y hy
        rcases List.mem_cons.mp hy with rfl | hy'
        · exact sortLT_asymm hlt
        · exact ih _ hz y hy'
      case isFalse hlt =>
        obtain rfl : z = x := Option.some.injEq z x |>.mp h
        intro y hy
        rcases List.mem_cons.mp hy with rfl | hy'
        · exact sortLT_irrefl _
        · have hy0 := ih _ hz y hy'
          by_contra hcon
          have hyx : sortLT y.2 z.2 = true := by
            cases hcase : sortLT y.2 z.2
            · exact absurd hcase hcon
            · rfl
          exact absurd (sortLT_cross hyx hy0) (by simp_all)

/-! ## Positional indexing lemmas -/

theorem mem_withIdxFrom {α : Type} {l : List α} :
    ∀ {n : Nat} {p : Nat × α},
      p ∈ withIdxFrom n l ↔ ∃ k, l.get? k = some p.2 ∧ p.1 = n + k := by
  induction l with
  | nil => intro n p; simp [withIdxFrom]
  | cons x xs ih =>
    intro n p
    obtain ⟨pa, pb⟩ := p
    simp only [withIdxFrom, List.mem_cons, ih, Prod.mk.injEq]
    constructor
    · rintro (⟨rfl, rfl⟩ | ⟨k, hk, hp⟩)
      · exact ⟨0, by simp⟩
      · exact ⟨k + 1, by simpa using hk, by omega⟩
    · rintro ⟨k, hk, hp⟩
      cases k with
      | zero =>
        left
        have hx : x = pb := by simpa using hk
        exact ⟨by omega, hx.symm⟩
      | succ k' =>
        right
        exact ⟨k', by simpa using hk, by omega⟩

theorem withIdxFrom_of_mem {α : Type} {l : List α} {d : α} (h : d ∈ l) :
    ∃ i, (i, d) ∈ withIdxFrom 0 l := by
  obtain ⟨k, hk⟩ := List.mem_iff_get?.mp h
  exact ⟨k, mem_withIdxFrom.mpr ⟨k, hk, by omega⟩⟩

theorem get?_set_ne' {α : Type} :
    ∀ (l : List α) (a : α) (i j : Nat), j ≠ i → (l.set i a).get? j = l.get? j := by
  intro l
  induction l with
  | nil => intro a i j hne; simp
  | cons x xs ih =>
    intro a i j hne
    cases i with
    | zero =>
      cases j with
      | zero => exact absurd rfl hne
      | succ k => simp [List.set]
    | succ i' =>
      cases j with
      | zero => simp [List.set]
      | succ k => simpa [List.set] using ih a i' k (by omega)

/-! ## Claim C1: getNextJobToRun -/

theorem jobEligible_iff (jobName : String) (nextScanAt lockDeadline : Int) (d : JobDoc) :
    jobEligible jobName nextScanAt lockDeadline d = true ↔
      (d.name = jobName ∧ d.disabled ≠ true ∧
        ((d.lockedAt = none ∧ ∃ t, d.nextRunAt = some t ∧ t ≤ nextScanAt) ∨
         (∃ tl, d.lockedAt = some tl ∧ tl ≤ lockDeadline))) := by
  unfold jobEligible
  cases hl : d.lockedAt <;> cases hn : d.nextRunAt <;>
    simp [dateLE, hl, hn, Bool.not_eq_true, and_assoc]

/-- Claim C1: a document is a candidate for `getNextJobToRun` iff its name
matches, it is not disabled, and it is unlocked-and-due or stale-locked; the
operation sets `lockedAt = now` on at most one document, chosen sort-first
among the candidates, returns the updated record, and returns `none` exactly
when no candidate exists (leaving the collection unchanged). -/
theorem claim_C1_getNextJobToRun (docs : List JobDoc) (jobName : String)
    (nextScanAt lockDeadline now : Int) (res : Option JobDoc) (docs' : List JobDoc)
    (h : getNextJobToRun docs jobName nextScanAt lockDeadline now = (res, docs')) :
    (∀ d ∈ docs, jobEligible jobName nextScanAt lockDeadline d = true ↔
      (d.name = jobName ∧ d.disabled ≠ true ∧
        ((d.lockedAt = none ∧ ∃ t, d.nextRunAt = some t ∧ t ≤ nextScanAt) ∨
         (∃ tl, d.lockedAt = some tl ∧ tl ≤ lockDeadline)))) ∧
    (res = none ↔ ∀ d ∈ docs, jobEligible jobName nextScanAt lockDeadline d = false) ∧
    (res = none → docs' = docs) ∧
    (∀ r, res = some r →
      ∃ i d, docs.get? i = some d ∧
        jobEligible jobName nextScanAt lockDeadline d = true ∧
        r = lockStamp now d ∧ r.lockedAt = some now ∧
        docs' = docs.set i r ∧
        (∀ j, j ≠ i → docs'.get? j = docs.get? j) ∧
        (∀ e ∈ docs, jobEligible jobName nextScanAt lockDeadline e = true →
          sortLT e d = false)) := by
  refine ⟨fun d _ => jobEligible_iff jobName nextScanAt lockDeadline d, ?_⟩
  cases hp : pickBest ((withIdxFrom 0 docs).filter
      (fun p => jobEligible jobName nextScanAt lockDeadline p.2)) with
  | none =>
    simp only [getNextJobToRun, hp] at h
    have hres : res = none := by
      have hfst := congrArg Prod.fst h
      simpa using hfst.symm
    have hdocs : docs' = docs := by
      have hsnd := congrArg Prod.snd h
      simpa using hsnd.symm
    rw [hres, hdocs]
    have hempty := pickBest_eq_none.mp hp
    refine ⟨⟨fun _ d hd => ?_, fun _ => rfl⟩, fun _ => rfl, by simp⟩
    obtain ⟨i, hi⟩ := withIdxFrom_of_mem hd
    cases hcase : jobEligible jobName nextScanAt lockDeadline d
    · rfl
    · exfalso
      have hmemf : (i, d) ∈ (withIdxFrom 0 docs).filter
          (fun p => jobEligible jobName nextScanAt lockDeadline p.2) :=
        List.mem_filter.mpr ⟨hi, by simpa using hcase⟩
      rw [hempty] at hmemf
      simp at hmemf
  | some pair =>
    obtain ⟨i, d⟩ := pair
    simp only [getNextJobToRun, hp] at h
    have hres : res = some (lockStamp now d) := by
      have hfst := congrArg Prod.fst h
      simpa using hfst.symm
    have hdocs : docs' = docs.set i (lockStamp now d) := by
      have hsnd := congrArg Prod.snd h
      simpa using hsnd.symm
    rw [hres, hdocs]
    have hmem := pickBest_mem _ _ hp
    have hfil := List.mem_filter.mp hmem
    have helig : jobEligible jobName nextScanAt lockDeadline d = true := by
      simpa using hfil.2
    have hget : docs.get? i = some d := by
      obtain ⟨k, hk, hik⟩ := mem_withIdxFrom.mp hfil.1
      have hik' : i = k := by omega
      exact hik' ▸ hk
    refine ⟨⟨fun hcontra => absurd hcontra (by simp), fun hall => ?_⟩,
      fun hcontra => absurd hcontra (by simp), fun r hr => ?_⟩
    · exfalso
      have hd := hall d (List.get?_mem hget)
      rw [helig] at hd
      exact absurd hd (by simp)
    · obtain rfl : r = lockStamp now d := by simpa using hr.symm
      refine ⟨i, d, hget, helig, rfl, rfl, rfl, fun j hj => ?_, fun e he helige => ?_⟩
      · exact get?_set_ne' docs (lockStamp now d) i j hj
      · obtain ⟨ie, hie⟩ := withIdxFrom_of_mem he
        exact pickBest_min _ _ hp (ie, e) (List.mem_filter.mpr ⟨hie, by simpa using helige⟩)

end AgendaFork

namespace AgendaFork

/-! ## Retry executor characterization -/

theorem retryLoop_char {ε α : Type} (op : Nat → Except ε α) (sr : ε → Bool) :
    ∀ (fuel attempt : Nat), ∃ j, attempt ≤ j ∧ j ≤ attempt + fuel ∧
      retryLoop op sr attempt fuel = (op j, j + 1) ∧
      (∀ i, attempt ≤ i → i < j → ∃ e, op i = .error e ∧ sr e = true) ∧
      (j < attempt + fuel → ∀ e, op j = .error e → sr e = false) := by
  intro fuel
  induction fuel with
  | zero =>
    intro attempt
    exact ⟨attempt, le_refl _, by omega, rfl,
      fun i h1 h2 => absurd h2 (by omega), fun hlt => absurd hlt (by omega)⟩
  | succ f ih =>
    intro attempt
    cases hop : op attempt with
    | ok a =>
      refine ⟨attempt, le_refl _, by omega, ?_,
        fun i h1 h2 => absurd h2 (by omega), fun _ e he => ?_⟩
      · simp [retryLoop, hop]
      · rw [hop] at he
        exact absurd he (by simp)
    | error e =>
      cases hsr : sr e with
      | false =>
        refine ⟨attempt, le_refl _, by omega, ?_,
          fun i h1 h2 => absurd h2 (by omega), fun _ e' he' => ?_⟩
        · simp [retryLoop, hop, hsr]
        · rw [hop] at he'
          obtain rfl : e = e' := by simpa using he'
          exact hsr
      | true =>
        obtain ⟨j, hj1, hj2, hj3, hj4, hj5⟩ := ih (attempt + 1)
        refine ⟨j, by omega, by omega, ?_, fun i h1 h2 => ?_, fun hlt => ?_⟩
        · simpa [retryLoop, hop, hsr] using hj3
        · rcases Nat.eq_or_lt_of_le h1 with rfl | h1'
          · exact ⟨e, hop, hsr⟩
          · exact hj4 i (by omega) h2
        · exact hj5 (by omega)

theorem defaultShouldRetry_iff (e : Option ErrRec) :
    defaultShouldRetry e = true ↔ specConflictClass e := by
  cases e with
  | none => simp [defaultShouldRetry, specConflictClass]
  | some r =>
    cases hm : r.message with
    | none =>
      simp [defaultShouldRetry, specConflictClass, hm]
      tauto
    | some m =>
      simp [defaultShouldRetry, specConflictClass, hm]
      tauto

/-! ## Claims C3 and C4: the retry executor -/

/-- Counterexample to claim C3 as stated: with the default classifier, the
0-th attempt fails with a non-conflict error while the 1st attempt (the first
to succeed) would return 42, yet the executor performs only one invocation and
propagates the error instead of performing 2 invocations and returning the
1st attempt's result. -/
theorem claim_C3_counterexample :
    c3Op 0 = .error plainErr ∧ c3Op 1 = .ok 42 ∧
    ¬ ((retryWithBackoff c3Op 3 defaultShouldRetry).2 = 2 ∧
       (retryWithBackoff c3Op 3 defaultShouldRetry).1 = .ok 42) := by
  refine ⟨rfl, rfl, fun hcl => ?_⟩
  have h1 : (retryWithBackoff c3Op 3 defaultShouldRetry).2 = 1 := rfl
  have h2 := hcl.1
  rw [h1] at h2
  exact absurd h2 (by decide)

/-- Claim C3 (amended): the executor performs between 1 and `maxRetries + 1`
invocations; when the `k`-th invocation is the first to succeed *and every
earlier invocation failed with a retryable error*, exactly `k + 1` invocations
are performed and the `k`-th outcome is returned; when all `maxRetries + 1`
invocations fail with retryable errors, the last error is propagated. -/
theorem claim_C3_retryAttempts {ε α : Type} (op : Nat → Except ε α) (sr : ε → Bool)
    (maxRetries : Nat) :
    1 ≤ (retryWithBackoff op maxRetries sr).2 ∧
    (retryWithBackoff op maxRetries sr).2 ≤ maxRetries + 1 ∧
    (∀ k, k ≤ maxRetries →
      (∀ j, j < k → ∃ e, op j = .error e ∧ sr e = true) →
      (∃ a, op k = .ok a) →
      (retryWithBackoff op maxRetries sr).2 = k + 1 ∧
      (retryWithBackoff op maxRetries sr).1 = op k) ∧
    ((∀ j, j ≤ maxRetries → ∃ e, op j = .error e ∧ sr e = true) →
      (retryWithBackoff op maxRetries sr).2 = maxRetries + 1 ∧
      (retryWithBackoff op maxRetries sr).1 = op maxRetries) := by
  obtain ⟨j, hj1, hj2, hj3, hj4, hj5⟩ := retryLoop_char op sr maxRetries 0
  have hcount : (retryWithBackoff op maxRetries sr).2 = j + 1 := by
    simp [retryWithBackoff, hj3]
  have hres : (retryWithBackoff op maxRetries sr).1 = op j := by
    simp [retryWithBackoff, hj3]
  refine ⟨by rw [hcount]; omega, by rw [hcount]; omega,
    fun k hk hpre hok => ?_, fun hall => ?_⟩
  · have hjk : j = k := by
      rcases Nat.lt_trichotomy j k with hlt | heq | hgt
      · obtain ⟨e, he, hsre⟩ := hpre j hlt
        have hfalse := hj5 (by omega) e he
        rw [hsre] at hfalse
        exact absurd hfalse (by simp)
      · exact heq
      · obtain ⟨e', he', _⟩ := hj4 k (by omega) hgt
        obtain ⟨a, ha⟩ := hok
        rw [ha] at he'
        exact absurd he' (by simp)
    exact ⟨by rw [hcount, hjk], by rw [hres, hjk]⟩
  · have hjm : j = maxRetries := by
      by_contra hne
      obtain ⟨e, he, hsre⟩ := hall j (by omega)
      have hfalse := hj5 (by omega) e he
      rw [hsre] at hfalse
      exact absurd hfalse (by simp)
    exact ⟨by rw [hcount, hjm], by rw [hres, hjm]⟩

/-- Witness for the amended C3 at scenario 6 of §8: two write conflicts, then
success on the third attempt. -/
theorem claim_C3_witness :
    1 ≤ (retryWithBackoff c4Op 3 defaultShouldRetry).2 ∧
    (retryWithBackoff c4Op 3 defaultShouldRetry).2 ≤ 3 + 1 ∧
    (∀ k, k ≤ 3 →
      (∀ j, j < k → ∃ e, c4Op j = .error e ∧ defaultShouldRetry e = true) →
      (∃ a, c4Op k = .ok a) →
      (retryWithBackoff c4Op 3 defaultShouldRetry).2 = k + 1 ∧
      (retryWithBackoff c4Op 3 defaultShouldRetry).1 = c4Op k) ∧
    ((∀ j, j ≤ 3 → ∃ e, c4Op j = .error e ∧ defaultShouldRetry e = true) →
      (retryWithBackoff c4Op 3 defaultShouldRetry).2 = 3 + 1 ∧
      (retryWithBackoff c4Op 3 defaultShouldRetry).1 = c4Op 3) :=
  claim_C3_retryAttempts c4Op defaultShouldRetry 3

/-- Claim C4: under the default classifier the executor re-invokes the
operation after a failed attempt iff the attempt is not the last and the
error is conflict-class (code 11000 or 112, codeName "WriteConflict", or a
message containing "WriteConflict" or "duplicate key"); a non-conflict error
is propagated immediately with no further invocation. -/
theorem claim_C4_defaultRetryClassifier {α : Type} (op : Nat → Except (Option ErrRec) α)
    (maxRetries k : Nat) (e : Option ErrRec)
    (hreach : k + 1 ≤ (retryWithBackoff op maxRetries defaultShouldRetry).2)
    (herr : op k = .error e) :
    (∀ e', defaultShouldRetry e' = true ↔ specConflictClass e') ∧
    (k + 2 ≤ (retryWithBackoff op maxRetries defaultShouldRetry).2 ↔
      (k < maxRetries ∧ specConflictClass e)) ∧
    (¬ specConflictClass e →
      (retryWithBackoff op maxRetries defaultShouldRetry).2 = k + 1 ∧
      (retryWithBackoff op maxRetries defaultShouldRetry).1 = .error e) := by
  obtain ⟨j, hj1, hj2, hj3, hj4, hj5⟩ := retryLoop_char op defaultShouldRetry maxRetries 0
  have hcount : (retryWithBackoff op maxRetries defaultShouldRetry).2 = j + 1 := by
    simp [retryWithBackoff, hj3]
  have hres : (retryWithBackoff op maxRetries defaultShouldRetry).1 = op j := by
    simp [retryWithBackoff, hj3]
  have hkj : k ≤ j := by rw [hcount] at hreach; omega
  refine ⟨defaultShouldRetry_iff, ⟨fun h2 => ?_, fun hand => ?_⟩, fun hncc => ?_⟩
  · have hkltj : k < j := by rw [hcount] at h2; omega
    obtain ⟨e', he', hsr'⟩ := hj4 k (by omega) hkltj
    obtain rfl : e = e' := by rw [herr] at he'; simpa using he'
    exact ⟨by omega, (defaultShouldRetry_iff e).mp hsr'⟩
  · obtain ⟨hk, hcc⟩ := hand
    rw [hcount]
    by_contra hcon
    have hjk : j = k := by omega
    have hfalse := hj5 (by omega) e (by rw [hjk, herr])
    rw [(defaultShouldRetry_iff e).mpr hcc] at hfalse
    exact absurd hfalse (by simp)
  · have hjk : j = k := by
      by_contra hne
      have hkltj : k < j := by omega
      obtain ⟨e', he', hsr'⟩ := hj4 k (by omega) hkltj
      obtain rfl : e = e' := by rw [herr] at he'; simpa using he'
      exact hncc ((defaultShouldRetry_iff e).mp hsr')
    exact ⟨by rw [hcount, hjk], by rw [hres, hjk, herr]⟩

/-- Witness for C4 at scenario 6 of §8: the attempt-0 write conflict is
re-invoked. -/
theorem claim_C4_witness :
    0 + 1 ≤ (retryWithBackoff c4Op 3 defaultShouldRetry).2 ∧
    c4Op 0 = .error conflictErr ∧
    ((∀ e', defaultShouldRetry e' = true ↔ specConflictClass e') ∧
      (0 + 2 ≤ (retryWithBackoff c4Op 3 defaultShouldRetry).2 ↔
        (0 < 3 ∧ specConflictClass conflictErr)) ∧
      (¬ specConflictClass conflictErr →
        (retryWithBackoff c4Op 3 defaultShouldRetry).2 = 0 + 1 ∧
        (retryWithBackoff c4Op 3 defaultShouldRetry).1 = .error conflictErr)) :=
  ⟨by decide, rfl, claim_C4_defaultRetryClassifier c4Op 3 0 conflictErr (by decide) rfl⟩

end AgendaFork

namespace AgendaFork

/-- Witness for C1 at a one-document collection with a stale lock. -/
theorem claim_C1_witness :
    getNextJobToRun [c1Doc] "A" 100 5 50
        = (some (lockStamp 50 c1Doc), [lockStamp 50 c1Doc]) ∧
    ((∀ d ∈ [c1Doc], jobEligible "A" 100 5 d = true ↔
        (d.name = "A" ∧ d.disabled ≠ true ∧
          ((d.lockedAt = none ∧ ∃ t, d.nextRunAt = some t ∧ t ≤ 100) ∨
           (∃ tl, d.lockedAt = some tl ∧ tl ≤ 5)))) ∧
      (some (lockStamp 50 c1Doc) = none ↔ ∀ d ∈ [c1Doc], jobEligible "A" 100 5 d = false) ∧
      (some (lockStamp 50 c1Doc) = none → [lockStamp 50 c1Doc] = [c1Doc]) ∧
      (∀ r, some (lockStamp 50 c1Doc) = some r →
        ∃ i d, [c1Doc].get? i = some d ∧
          jobEligible "A" 100 5 d = true ∧
          r = lockStamp 50 d ∧ r.lockedAt = some 50 ∧
          [lockStamp 50 c1Doc] = [c1Doc].set i r ∧
          (∀ j, j ≠ i → [lockStamp 50 c1Doc].get? j = [c1Doc].get? j) ∧
          (∀ e ∈ [c1Doc], jobEligible "A" 100 5 e = true → sortLT e d = false))) :=
  ⟨rfl, claim_C1_getNextJobToRun [c1Doc] "A" 100 5 50
    (some (lockStamp 50 c1Doc)) [lockStamp 50 c1Doc] rfl⟩

/-! ## Ready queue lemmas -/

theorem findIdxFrom_none {α : Type} (p : α → Bool) :
    ∀ (l : List α) (i : Nat), findIdxFrom p i l = none ↔ ∀ y ∈ l, p y = false := by
  intro l
  induction l with
  | nil => intro i; simp [findIdxFrom]
  | cons x xs ih =>
    intro i
    cases hx : p x with
    | true => simp [findIdxFrom, hx]
    | false => simp [findIdxFrom, hx, ih]

theorem findIdxFrom_some {α : Type} (p : α → Bool) :
    ∀ (l : List α) (i0 i : Nat), findIdxFrom p i0 l = some i →
      ∃ k, i = i0 + k ∧ (∃ y, l.get? k = some y ∧ p y = true) ∧
        (∀ j, j < k → ∀ y, l.get? j = some y → p y = false) := by
  intro l
  induction l with
  | nil => intro i0 i h; simp [findIdxFrom] at h
  | cons x xs ih =>
    intro i0 i h
    cases hx : p x with
    | true =>
      rw [findIdxFrom, if_pos hx] at h
      obtain rfl : i0 = i := by simpa using h
      exact ⟨0, by omega, ⟨x, rfl, hx⟩, fun j hj => absurd hj (by omega)⟩
    | false =>
      rw [findIdxFrom, if_neg (by simp [hx])] at h
      obtain ⟨k, hk, hy, hbefore⟩ := ih (i0 + 1) i h
      refine ⟨k + 1, by omega, by simpa using hy, fun j hj y hy' => ?_⟩
      cases j with
      | zero =>
        obtain rfl : x = y := by simpa using hy'
        exact hx
      | succ j' => exact hbefore j' (by omega) y (by simpa using hy')

/-! ## Claim C6: pop -/

theorem queuePop_eq (q : List JobDoc) : queuePop q = (q.getLast?, q.dropLast) := by
  induction q with
  | nil => rfl
  | cons x xs ih =>
    cases xs with
    | nil => rfl
    | cons y ys =>
      simp only [queuePop, ih]
      simp [List.getLast?_cons_cons]

/-- Counterexample to claim C6 as stated: after inserting a job due at 1 and
then a job due at 2 into an empty queue, `pop` returns the job due at 1 — the
most urgent — while the job due at 2, which is after it in the
(nextRunAt ASC, priority DESC) order, is still in the queue; the popped
element is not the least-urgent one. -/
theorem claim_C6_counterexample :
    ¬ (∀ r, (queuePop c6Queue).1 = some r → ∀ y ∈ c6Queue, sortLT r y = false) := by
  intro hcl
  exact absurd (hcl c6JobA rfl c6JobB (by decide)) (by decide)

/-- Claim C6 (amended): `pop` returns and removes the rightmost (last)
element of the queue; the queue layout maintained by `insert` is not the
(nextRunAt ASC, priority DESC) left-to-right order, so that element need not
be the least-urgent job present. -/
theorem claim_C6_pop_rightmost : ∀ q : List JobDoc, queuePop q = (q.getLast?, q.dropLast) :=
  queuePop_eq

/-! ## Claim C7: insert and overflow -/

/-- Claim C7: `insert` fails and emits `queueOverflow` exactly when the queue
already holds `maxQueueSize` (default 10000) elements, leaving the queue
unchanged; otherwise it emits nothing, succeeds, and splices the job in
before the first element matching the ordering predicate (at the left end
when none matches). -/
theorem claim_C7_queueInsert (maxQ : Nat) (q : List JobDoc) (job : JobDoc) :
    defaultMaxQueueSize = 10000 ∧
    ((queueInsert maxQ q job).1 = false ↔ maxQ ≤ q.length) ∧
    (maxQ ≤ q.length →
      queueInsert maxQ q job = (false, q, [⟨job.name, q.length, maxQ⟩])) ∧
    (q.length < maxQ →
      (queueInsert maxQ q job).2.2 = [] ∧
      (queueInsert maxQ q job).1 = true ∧
      ((∀ y ∈ q, insertMatch job y = false) → (queueInsert maxQ q job).2.1 = job :: q) ∧
      (∀ i, findIdxFrom (insertMatch job) 0 q = some i →
        (∃ y, q.get? i = some y ∧ insertMatch job y = true) ∧
        (∀ j, j < i → ∀ y, q.get? j = some y → insertMatch job y = false) ∧
        (queueInsert maxQ q job).2.1 = q.take i ++ job :: q.drop i)) := by
  by_cases hle : maxQ ≤ q.length
  · refine ⟨rfl, ?_, fun _ => ?_, fun hlt => absurd hlt (by omega)⟩
    · simp [queueInsert, hle]
    · simp [queueInsert, hle]
  · have hlt : q.length < maxQ := by omega
    refine ⟨rfl, ?_, fun hcontra => absurd hcontra hle, fun _ => ⟨?_, ?_, fun hall => ?_, fun i hi => ?_⟩⟩
    · cases hf : findIdxFrom (insertMatch job) 0 q <;> simp [queueInsert, hle, hf]
    · cases hf : findIdxFrom (insertMatch job) 0 q <;> simp [queueInsert, hle, hf]
    · cases hf : findIdxFrom (insertMatch job) 0 q <;> simp [queueInsert, hle, hf]
    · have hnone : findIdxFrom (insertMatch job) 0 q = none :=
        (findIdxFrom_none (insertMatch job) q 0).mpr hall
      simp [queueInsert, hle, hnone]
    · obtain ⟨k, hk, hy, hbefore⟩ := findIdxFrom_some (insertMatch job) q 0 i hi
      obtain rfl : i = k := by omega
      exact ⟨hy, fun j hj y hy' => hbefore j hj y hy', by simp [queueInsert, hle, hi]⟩

/-- Witness for C7 at an empty queue with capacity 1. -/
theorem claim_C7_witness :
    defaultMaxQueueSize = 10000 ∧
    ((queueInsert 1 [] c7Job).1 = false ↔ 1 ≤ ([] : List JobDoc).length) ∧
    (1 ≤ ([] : List JobDoc).length →
      queueInsert 1 [] c7Job = (false, [], [⟨c7Job.name, ([] : List JobDoc).length, 1⟩])) ∧
    (([] : List JobDoc).length < 1 →
      (queueInsert 1 [] c7Job).2.2 = [] ∧
      (queueInsert 1 [] c7Job).1 = true ∧
      ((∀ y ∈ ([] : List JobDoc), insertMatch c7Job y = false) →
        (queueInsert 1 [] c7Job).2.1 = c7Job :: []) ∧
      (∀ i, findIdxFrom (insertMatch c7Job) 0 [] = some i →
        (∃ y, ([] : List JobDoc).get? i = some y ∧ insertMatch c7Job y = true) ∧
        (∀ j, j < i → ∀ y, ([] : List JobDoc).get? j = some y → insertMatch c7Job y = false) ∧
        (queueInsert 1 [] c7Job).2.1 = ([] : List JobDoc).take i ++ c7Job :: ([] : List JobDoc).drop i)) :=
  claim_C7_queueInsert 1 [] c7Job

end AgendaFork

namespace AgendaFork

/-! ## Generic list lemmas -/

theorem nodup_map_inj {α β : Type} (f : α → β) :
    ∀ (l : List α), (l.map f).Nodup → ∀ a ∈ l, ∀ b ∈ l, f a = f b → a = b := by
  intro l
  induction l with
  | nil => simp
  | cons x xs ih =>
    intro hnd a ha b hb hf
    rw [List.map_cons, List.nodup_cons] at hnd
    obtain ⟨hx, hnd'⟩ := hnd
    rcases List.mem_cons.mp ha with rfl | ha' <;> rcases List.mem_cons.mp hb with rfl | hb'
    · rfl
    · exact absurd (List.mem_map.mpr ⟨b, hb', hf.symm⟩) hx
    · exact absurd (List.mem_map.mpr ⟨a, ha', hf⟩) hx
    · exact ih hnd' a ha' b hb' hf

theorem contains_iff_mem {l : List Nat} {a : Nat} : l.contains a = true ↔ a ∈ l := by
  simp

theorem find?_eq_some_unique {α : Type} (p : α → Bool) :
    ∀ (l : List α) (x : α), x ∈ l → p x = true → (∀ y ∈ l, p y = true → y = x) →
      l.find? p = some x := by
  intro l
  induction l with
  | nil => intro x hx; simp at hx
  | cons z zs ih =>
    intro x hx hp huniq
    cases hz : p z with
    | true =>
      have hzx : z = x := huniq z (List.mem_cons_self z zs) hz
      subst hzx
      simp [List.find?, hz]
    | false =>
      rcases List.mem_cons.mp hx with rfl | hx'
      · exact absurd hp (by simp [hz])
      · simp only [List.find?, hz]
        exact ih x hx' hp (fun y hy hpy => huniq y (List.mem_cons_of_mem _ hy) hpy)

theorem filterMap_eq_map_of_some {α β : Type} (f : α → Option β) (g : α → β) :
    ∀ (l : List α), (∀ x ∈ l, f x = some (g x)) → l.filterMap f = l.map g := by
  intro l
  induction l with
  | nil => intro _; rfl
  | cons x xs ih =>
    intro h
    simp [List.filterMap_cons, h x (List.mem_cons_self x xs),
      ih (fun y hy => h y (List.mem_cons_of_mem _ hy))]

theorem map_congr_mem {α β : Type} (f g : α → β) :
    ∀ (l : List α), (∀ a ∈ l, f a = g a) → l.map f = l.map g := by
  intro l
  induction l with
  | nil => intro _; rfl
  | cons x xs ih =>
    intro h
    simp [h x (List.mem_cons_self x xs), ih (fun y hy => h y (List.mem_cons_of_mem _ hy))]

/-! ## Field lemmas for the lock stamp -/

@[simp] theorem lockStamp_id (now : Int) (d : JobDoc) : (lockStamp now d)._id = d._id := rfl

@[simp] theorem lockStamp_name (now : Int) (d : JobDoc) : (lockStamp now d).name = d.name := rfl

@[simp] theorem lockStamp_nextRunAt (now : Int) (d : JobDoc) :
    (lockStamp now d).nextRunAt = d.nextRunAt := rfl

@[simp] theorem lockStamp_lockedAt (now : Int) (d : JobDoc) :
    (lockStamp now d).lockedAt = some now := rfl

theorem unstamp_of_none {d : JobDoc} (now : Int) (hd : d.lockedAt = none) :
    { lockStamp now d with lockedAt := none } = d := by
  cases d
  simp_all [lockStamp]

/-! ## Sortedness of the batch phase 1 -/

theorem mem_insSorted {a x : JobDoc} :
    ∀ {l : List JobDoc}, a ∈ insSorted x l ↔ a = x ∨ a ∈ l := by
  intro l
  induction l with
  | nil => simp [insSorted]
  | cons y ys ih =>
    simp only [insSorted]
    split
    · rw [List.mem_cons, ih, List.mem_cons]
      tauto
    · simp only [List.mem_cons]

theorem mem_sortJobs {a : JobDoc} : ∀ {l : List JobDoc}, a ∈ sortJobs l ↔ a ∈ l := by
  intro l
  induction l with
  | nil => simp [sortJobs]
  | cons x xs ih =>
    rw [sortJobs, mem_insSorted, List.mem_cons, ih]

theorem pairwise_insSorted (x : JobDoc) :
    ∀ {l : List JobDoc}, l.Pairwise (fun a b => sortLT b a = false) →
      (insSorted x l).Pairwise (fun a b => sortLT b a = false) := by
  intro l
  induction l with
  | nil => intro _; simp [insSorted]
  | cons y ys ih =>
    intro hp
    rw [List.pairwise_cons] at hp
    obtain ⟨hy, hys⟩ := hp
    simp only [insSorted]
    split
    case isTrue hxy =>
      rw [List.pairwise_cons]
      constructor
      · intro b hb
        rcases mem_insSorted.mp hb with rfl | hb'
        · exact sortLT_asymm hxy
        · exact hy b hb'
      · exact ih hys
    case isFalse hxy =>
      rw [List.pairwise_cons]
      constructor
      · intro b hb
        rcases List.mem_cons.mp hb with rfl | hb'
        · cases hcase : sortLT b x
          · rfl
          · exact absurd hcase hxy
        · by_contra hcon
          have hbx : sortLT b x = true := by
            cases hcase : sortLT b x
            · exact absurd hcase hcon
            · rfl
          have := sortLT_cross hbx (hy b hb')
          simp_all
      · rw [List.pairwise_cons]
        exact ⟨hy, hys⟩

theorem pairwise_sortJobs :
    ∀ (l : List JobDoc), (sortJobs l).Pairwise (fun a b => sortLT b a = false) := by
  intro l
  induction l with
  | nil => simp [sortJobs]
  | cons x xs ih => exact pairwise_insSorted x ih

theorem batchPhase1_mem {docs : List JobDoc} {jobName : String} {batchSize : Nat}
    {nextScanAt lockDeadline : Int} {o : JobDoc}
    (h : o ∈ batchPhase1 docs jobName batchSize nextScanAt lockDeadline) :
    o ∈ docs ∧ jobEligible jobName nextScanAt lockDeadline o = true := by
  have h1 : o ∈ sortJobs (docs.filter (jobEligible jobName nextScanAt lockDeadline)) :=
    List.take_subset _ _ h
  have h2 := mem_sortJobs.mp h1
  exact ⟨(List.mem_filter.mp h2).1, (List.mem_filter.mp h2).2⟩

theorem batchPhase1_length (docs : List JobDoc) (jobName : String) (batchSize : Nat)
    (nextScanAt lockDeadline : Int) :
    (batchPhase1 docs jobName batchSize nextScanAt lockDeadline).length ≤ batchSize := by
  unfold batchPhase1
  exact List.length_take_le _ _

theorem batchPhase1_sorted (docs : List JobDoc) (jobName : String) (batchSize : Nat)
    (nextScanAt lockDeadline : Int) :
    (batchPhase1 docs jobName batchSize nextScanAt lockDeadline).Pairwise
      (fun a b => sortLT b a = false) :=
  (pairwise_sortJobs _).sublist (List.take_sublist _ _)

theorem stillUnlocked_of_eligible {jobName : String} {nextScanAt lockDeadline : Int}
    {d : JobDoc} (h : jobEligible jobName nextScanAt lockDeadline d = true) :
    stillUnlocked lockDeadline d = true := by
  unfold jobEligible at h
  unfold stillUnlocked
  simp only [Bool.and_eq_true, Bool.or_eq_true] at h ⊢
  tauto

end AgendaFork

namespace AgendaFork

theorem eligible_name {jobName : String} {nextScanAt lockDeadline : Int} {d : JobDoc}
    (h : jobEligible jobName nextScanAt lockDeadline d = true) : d.name = jobName := by
  unfold jobEligible at h
  simp only [Bool.and_eq_true, beq_iff_eq] at h
  exact h.1.1

theorem eligible_nextRunAt_of_unlocked {jobName : String} {nextScanAt lockDeadline : Int}
    {d : JobDoc} (h : jobEligible jobName nextScanAt lockDeadline d = true)
    (hnone : d.lockedAt = none) : ∃ t, d.nextRunAt = some t := by
  unfold jobEligible at h
  simp only [Bool.and_eq_true, Bool.or_eq_true, beq_iff_eq] at h
  rcases h.2 with ⟨_, hdue⟩ | hstale
  · cases hn : d.nextRunAt with
    | none => rw [hn] at hdue; exact absurd hdue (by simp [dateLE])
    | some t => exact ⟨t, rfl⟩
  · rw [hnone] at hstale
    exact absurd hstale (by simp [dateLE])

theorem mem_phase1_id_iff (docs : List JobDoc) (jobName : String) (batchSize : Nat)
    (nextScanAt lockDeadline : Int)
    (hnd : (docs.map (fun d => d._id)).Nodup) :
    ∀ d ∈ docs,
      (((batchPhase1 docs jobName batchSize nextScanAt lockDeadline).map
          (fun d => d._id)).contains d._id = true ↔
        d ∈ batchPhase1 docs jobName batchSize nextScanAt lockDeadline) := by
  intro d hd
  constructor
  · intro hc
    obtain ⟨o, ho, hoid⟩ := List.mem_map.mp (contains_iff_mem.mp hc)
    have hodocs := (batchPhase1_mem ho).1
    have hod : o = d := nodup_map_inj _ docs hnd o hodocs d hd hoid
    exact hod ▸ ho
  · intro hmem
    exact contains_iff_mem.mpr (List.mem_map.mpr ⟨d, hmem, rfl⟩)

theorem bgnj_find (docs : List JobDoc) (jobName : String) (batchSize : Nat)
    (nextScanAt lockDeadline now : Int)
    (hnd : (docs.map (fun d => d._id)).Nodup) :
    ∀ o ∈ batchPhase1 docs jobName batchSize nextScanAt lockDeadline,
      ((docs.map (fun d =>
          if ((batchPhase1 docs jobName batchSize nextScanAt lockDeadline).map
              (fun d => d._id)).contains d._id && stillUnlocked lockDeadline d
          then lockStamp now d else d)).filter (fun d =>
            ((batchPhase1 docs jobName batchSize nextScanAt lockDeadline).map
              (fun d => d._id)).contains d._id && d.lockedAt == some now)).find?
        (fun l => l._id == o._id) = some (lockStamp now o) := by
  intro o ho
  have hodocs := (batchPhase1_mem ho).1
  have hoelig := (batchPhase1_mem ho).2
  have hocond : (((batchPhase1 docs jobName batchSize nextScanAt lockDeadline).map
      (fun d => d._id)).contains o._id && stillUnlocked lockDeadline o) = true := by
    rw [Bool.and_eq_true]
    exact ⟨(mem_phase1_id_iff docs jobName batchSize nextScanAt lockDeadline hnd o hodocs).mpr ho,
      stillUnlocked_of_eligible hoelig⟩
  apply find?_eq_some_unique
  · apply List.mem_filter.mpr
    constructor
    · apply List.mem_map.mpr
      refine ⟨o, hodocs, ?_⟩
      rw [if_pos hocond]
    · rw [Bool.and_eq_true]
      constructor
      · simpa using (Bool.and_eq_true _ _ |>.mp hocond).1
      · simp
  · simp
  · intro y hy hpy
    obtain ⟨hy2, hyfil⟩ := List.mem_filter.mp hy
    obtain ⟨dy, hdy, hfdy⟩ := List.mem_map.mp hy2
    rw [Bool.and_eq_true] at hyfil
    have hyid : y._id = o._id := by simpa using hpy
    by_cases hcond : (((batchPhase1 docs jobName batchSize nextScanAt lockDeadline).map
        (fun d => d._id)).contains dy._id && stillUnlocked lockDeadline dy) = true
    · rw [if_pos hcond] at hfdy
      have hy' : y = lockStamp now dy := hfdy.symm
      have hdyid : dy._id = o._id := by rw [hy'] at hyid; simpa using hyid
      have hdyo : dy = o := nodup_map_inj _ docs hnd dy hdy o hodocs hdyid
      rw [hy', hdyo]
    · rw [if_neg hcond] at hfdy
      exfalso
      have hydy : y = dy := hfdy.symm
      apply hcond
      rw [Bool.and_eq_true]
      have hcont : ((batchPhase1 docs jobName batchSize nextScanAt lockDeadline).map
          (fun d => d._id)).contains dy._id = true := by
        rw [← hydy]
        exact hyfil.1
      have hdyphi : dy ∈ batchPhase1 docs jobName batchSize nextScanAt lockDeadline :=
        (mem_phase1_id_iff docs jobName batchSize nextScanAt lockDeadline hnd dy hdy).mp hcont
      exact ⟨hcont, stillUnlocked_of_eligible (batchPhase1_mem hdyphi).2⟩

end AgendaFork

namespace AgendaFork

theorem bgnj_empty (docs : List JobDoc) (jobName : String) (batchSize : Nat)
    (nextScanAt lockDeadline now : Int)
    (hemp : (batchPhase1 docs jobName batchSize nextScanAt lockDeadline).isEmpty = true) :
    batchGetNextJobsToRun docs jobName batchSize nextScanAt lockDeadline now = ([], docs) := by
  unfold batchGetNextJobsToRun
  dsimp only
  rw [hemp]
  simp only [if_true]

theorem bgnj_snd_nonempty (docs : List JobDoc) (jobName : String) (batchSize : Nat)
    (nextScanAt lockDeadline now : Int)
    (hne : (batchPhase1 docs jobName batchSize nextScanAt lockDeadline).isEmpty = false) :
    (batchGetNextJobsToRun docs jobName batchSize nextScanAt lockDeadline now).2 =
      docs.map (fun d =>
        if ((batchPhase1 docs jobName batchSize nextScanAt lockDeadline).map
            (fun d => d._id)).contains d._id && stillUnlocked lockDeadline d
        then lockStamp now d else d) := by
  unfold batchGetNextJobsToRun
  dsimp only
  rw [hne]
  simp only [Bool.false_eq_true, if_false]
  split <;> rfl

theorem bgnj_fst_nonempty (docs : List JobDoc) (jobName : String) (batchSize : Nat)
    (nextScanAt lockDeadline now : Int)
    (hnd : (docs.map (fun d => d._id)).Nodup)
    (hne : (batchPhase1 docs jobName batchSize nextScanAt lockDeadline).isEmpty = false)
    (hmod : 0 < (docs.filter (fun d =>
      (((batchPhase1 docs jobName batchSize nextScanAt lockDeadline).map
          (fun d => d._id)).contains d._id && stillUnlocked lockDeadline d) &&
        !(d.lockedAt == some now))).length) :
    (batchGetNextJobsToRun docs jobName batchSize nextScanAt lockDeadline now).1 =
      (batchPhase1 docs jobName batchSize nextScanAt lockDeadline).map (lockStamp now) := by
  unfold batchGetNextJobsToRun
  dsimp only
  rw [hne]
  simp only [Bool.false_eq_true, if_false]
  rw [if_pos hmod]
  exact filterMap_eq_map_of_some _ _ _
    (bgnj_find docs jobName batchSize nextScanAt lockDeadline now hnd)

theorem bgnj_fst_unmodified (docs : List JobDoc) (jobName : String) (batchSize : Nat)
    (nextScanAt lockDeadline now : Int)
    (hne : (batchPhase1 docs jobName batchSize nextScanAt lockDeadline).isEmpty = false)
    (hmod : ¬ 0 < (docs.filter (fun d =>
      (((batchPhase1 docs jobName batchSize nextScanAt lockDeadline).map
          (fun d => d._id)).contains d._id && stillUnlocked lockDeadline d) &&
        !(d.lockedAt == some now))).length) :
    (batchGetNextJobsToRun docs jobName batchSize nextScanAt lockDeadline now).1 = [] := by
  unfold batchGetNextJobsToRun
  dsimp only
  rw [hne]
  simp only [Bool.false_eq_true, if_false]
  rw [if_neg hmod]

theorem bgnj_fst_cases (docs : List JobDoc) (jobName : String) (batchSize : Nat)
    (nextScanAt lockDeadline now : Int)
    (hnd : (docs.map (fun d => d._id)).Nodup) :
    (batchGetNextJobsToRun docs jobName batchSize nextScanAt lockDeadline now).1 = [] ∨
    (batchGetNextJobsToRun docs jobName batchSize nextScanAt lockDeadline now).1 =
      (batchPhase1 docs jobName batchSize nextScanAt lockDeadline).map (lockStamp now) := by
  cases hemp : (batchPhase1 docs jobName batchSize nextScanAt lockDeadline).isEmpty with
  | true => left; rw [bgnj_empty docs jobName batchSize nextScanAt lockDeadline now hemp]
  | false =>
    by_cases hmod : 0 < (docs.filter (fun d =>
        (((batchPhase1 docs jobName batchSize nextScanAt lockDeadline).map
            (fun d => d._id)).contains d._id && stillUnlocked lockDeadline d) &&
          !(d.lockedAt == some now))).length
    · right
      exact bgnj_fst_nonempty docs jobName batchSize nextScanAt lockDeadline now hnd hemp hmod
    · left
      exact bgnj_fst_unmodified docs jobName batchSize nextScanAt lockDeadline now hemp hmod

/-! ## Claim C2: batchGetNextJobsToRun -/

/-- Claim C2: every record returned by `batchGetNextJobsToRun` carries the
requested name and `lockedAt == now`, comes from the at most `batchSize`
eligible documents selected in phase 1, passed the phase-2 re-check
(`lockedAt` null or expired), and the returned list preserves the phase-1
`(nextRunAt ASC, priority DESC)` order; at most `batchSize` records are
returned. -/
theorem claim_C2_batchClaim (docs : List JobDoc) (jobName : String) (batchSize : Nat)
    (nextScanAt lockDeadline now : Int) (res docs2' : List JobDoc)
    (hnd : (docs.map (fun d => d._id)).Nodup)
    (h : batchGetNextJobsToRun docs jobName batchSize nextScanAt lockDeadline now = (res, docs2')) :
    res.length ≤ batchSize ∧
    (∀ r ∈ res, r.name = jobName ∧ r.lockedAt = some now ∧
      ∃ o ∈ batchPhase1 docs jobName batchSize nextScanAt lockDeadline,
        r = lockStamp now o ∧ jobEligible jobName nextScanAt lockDeadline o = true ∧
        (o.lockedAt = none ∨ dateLE o.lockedAt lockDeadline = true)) ∧
    res.Sublist ((batchPhase1 docs jobName batchSize nextScanAt lockDeadline).map
      (lockStamp now)) ∧
    (batchPhase1 docs jobName batchSize nextScanAt lockDeadline).length ≤ batchSize ∧
    (batchPhase1 docs jobName batchSize nextScanAt lockDeadline).Pairwise
      (fun a b => sortLT b a = false) := by
  have hres : res = (batchGetNextJobsToRun docs jobName batchSize nextScanAt lockDeadline now).1 := by
    rw [h]
  rcases bgnj_fst_cases docs jobName batchSize nextScanAt lockDeadline now hnd with hcase | hcase
  · rw [hres, hcase]
    exact ⟨by simp, by simp, List.nil_sublist _,
      batchPhase1_length docs jobName batchSize nextScanAt lockDeadline,
      batchPhase1_sorted docs jobName batchSize nextScanAt lockDeadline⟩
  · rw [hres, hcase]
    refine ⟨?_, ?_, List.Sublist.refl _,
      batchPhase1_length docs jobName batchSize nextScanAt lockDeadline,
      batchPhase1_sorted docs jobName batchSize nextScanAt lockDeadline⟩
    · rw [List.length_map]
      exact batchPhase1_length docs jobName batchSize nextScanAt lockDeadline
    · intro r hr
      obtain ⟨o, ho, rfl⟩ := List.mem_map.mp hr
      have helig := (batchPhase1_mem ho).2
      refine ⟨by simpa using eligible_name helig, by simp, o, ho, rfl, helig, ?_⟩
      have hsu := stillUnlocked_of_eligible helig
      unfold stillUnlocked at hsu
      simp only [Bool.or_eq_true, beq_iff_eq] at hsu
      exact hsu

/-! ## Claim C8: batch claim followed by release -/

/-- Counterexample to claim C8 as stated: a document holding a stale lock
(`lockedAt = some 0 ≤ lockDeadline = 5`) is batch-claimed; releasing the
returned ids *unsets* `lockedAt` instead of restoring `some 0`, so the
collection differs from its pre-claim state. -/
theorem claim_C8_counterexample :
    (batchGetNextJobsToRun [c8Doc] "A" 1 100 5 10).1 = [lockStamp 10 c8Doc] ∧
    c8Doc.lockedAt = some 0 ∧
    unlockJobs (batchGetNextJobsToRun [c8Doc] "A" 1 100 5 10).2
        ((batchGetNextJobsToRun [c8Doc] "A" 1 100 5 10).1.map (fun d => d._id)) ≠ [c8Doc] :=
  ⟨rfl, rfl, by decide⟩

/-- Claim C8 (amended): on a collection whose documents are all unlocked,
`batchGetNextJobsToRun` followed by `unlockJobs` of exactly the returned ids
restores the collection unchanged (documents claimed by stealing a stale lock
instead end with `lockedAt` cleared, not restored — see the
counterexample). -/
theorem claim_C8_claimRelease (docs : List JobDoc) (jobName : String) (batchSize : Nat)
    (nextScanAt lockDeadline now : Int) (res docs2' : List JobDoc)
    (hnd : (docs.map (fun d => d._id)).Nodup)
    (hunl : ∀ d ∈ docs, d.lockedAt = none)
    (h : batchGetNextJobsToRun docs jobName batchSize nextScanAt lockDeadline now = (res, docs2')) :
    unlockJobs docs2' (res.map (fun d => d._id)) = docs := by
  have hres : res = (batchGetNextJobsToRun docs jobName batchSize nextScanAt lockDeadline now).1 := by
    rw [h]
  have hsnd : docs2' = (batchGetNextJobsToRun docs jobName batchSize nextScanAt lockDeadline now).2 := by
    rw [h]
  cases hemp : (batchPhase1 docs jobName batchSize nextScanAt lockDeadline).isEmpty with
  | true =>
    have hpair := bgnj_empty docs jobName batchSize nextScanAt lockDeadline now hemp
    rw [hpair] at hres hsnd
    dsimp only at hres hsnd
    rw [hres, hsnd]
    unfold unlockJobs
    have hpt0 : ∀ d ∈ docs,
        (if (((List.map (fun d => d._id) ([] : List JobDoc)).contains d._id) &&
            !(d.nextRunAt == none))
         then { d with lockedAt := none } else d) = d := fun d _ => rfl
    rw [map_congr_mem _ (fun d => d) docs hpt0]
    exact List.map_id' docs
  | false =>
    have hmod : 0 < (docs.filter (fun d =>
        (((batchPhase1 docs jobName batchSize nextScanAt lockDeadline).map
            (fun d => d._id)).contains d._id && stillUnlocked lockDeadline d) &&
          !(d.lockedAt == some now))).length := by
      have hnil : batchPhase1 docs jobName batchSize nextScanAt lockDeadline ≠ [] := by
        intro hcon
        rw [hcon] at hemp
        simp at hemp
      obtain ⟨o, ho⟩ := List.exists_mem_of_ne_nil _ hnil
      have hodocs := (batchPhase1_mem ho).1
      have hin : o ∈ docs.filter (fun d =>
          (((batchPhase1 docs jobName batchSize nextScanAt lockDeadline).map
              (fun d => d._id)).contains d._id && stillUnlocked lockDeadline d) &&
            !(d.lockedAt == some now)) := by
        apply List.mem_filter.mpr
        refine ⟨hodocs, ?_⟩
        rw [Bool.and_eq_true, Bool.and_eq_true]
        refine ⟨⟨(mem_phase1_id_iff docs jobName batchSize nextScanAt lockDeadline hnd o hodocs).mpr ho,
          stillUnlocked_of_eligible (batchPhase1_mem ho).2⟩, ?_⟩
        have hnone := hunl o hodocs
        simp [hnone]
      exact List.length_pos_of_mem hin
    have h1 := bgnj_fst_nonempty docs jobName batchSize nextScanAt lockDeadline now hnd hemp hmod
    have h2 := bgnj_snd_nonempty docs jobName batchSize nextScanAt lockDeadline now hemp
    rw [hres, hsnd, h1, h2]
    have hids : ((batchPhase1 docs jobName batchSize nextScanAt lockDeadline).map
        (lockStamp now)).map (fun d => d._id) =
        (batchPhase1 docs jobName batchSize nextScanAt lockDeadline).map (fun d => d._id) := by
      rw [List.map_map]
      exact map_congr_mem _ _ _ (fun o _ => rfl)
    rw [hids]
    unfold unlockJobs
    rw [List.map_map]
    have hpt : ∀ d ∈ docs, ((fun x =>
        if ((batchPhase1 docs jobName batchSize nextScanAt lockDeadline).map
            (fun d => d._id)).contains x._id && !(x.nextRunAt == none)
        then { x with lockedAt := none } else x) ∘ (fun d =>
        if ((batchPhase1 docs jobName batchSize nextScanAt lockDeadline).map
            (fun d => d._id)).contains d._id && stillUnlocked lockDeadline d
        then lockStamp now d else d)) d = d := by
      intro d hd
      by_cases hdphi : d ∈ batchPhase1 docs jobName batchSize nextScanAt lockDeadline
      · have hcond : (((batchPhase1 docs jobName batchSize nextScanAt lockDeadline).map
            (fun d => d._id)).contains d._id && stillUnlocked lockDeadline d) = true := by
          rw [Bool.and_eq_true]
          exact ⟨(mem_phase1_id_iff docs jobName batchSize nextScanAt lockDeadline hnd d hd).mpr hdphi,
            stillUnlocked_of_eligible (batchPhase1_mem hdphi).2⟩
        have helig := (batchPhase1_mem hdphi).2
        have hnone := hunl d hd
        obtain ⟨t, ht⟩ := eligible_nextRunAt_of_unlocked helig hnone
        show (fun x => if ((batchPhase1 docs jobName batchSize nextScanAt lockDeadline).map
            (fun d => d._id)).contains x._id && !(x.nextRunAt == none)
          then { x with lockedAt := none } else x)
          (if ((batchPhase1 docs jobName batchSize nextScanAt lockDeadline).map
              (fun d => d._id)).contains d._id && stillUnlocked lockDeadline d
            then lockStamp now d else d) = d
        rw [if_pos hcond]
        dsimp only
        rw [if_pos (by rw [Bool.and_eq_true]
                       refine ⟨by simpa using (Bool.and_eq_true _ _ |>.mp hcond).1, ?_⟩
                       simp [ht])]
        exact unstamp_of_none now hnone
      · have hcont : ((batchPhase1 docs jobName batchSize nextScanAt lockDeadline).map
            (fun d => d._id)).contains d._id = false := by
          cases hcase : ((batchPhase1 docs jobName batchSize nextScanAt lockDeadline).map
              (fun d => d._id)).contains d._id
          · rfl
          · exact absurd ((mem_phase1_id_iff docs jobName batchSize nextScanAt lockDeadline hnd d hd).mp hcase) hdphi
        show (fun x => if ((batchPhase1 docs jobName batchSize nextScanAt lockDeadline).map
            (fun d => d._id)).contains x._id && !(x.nextRunAt == none)
          then { x with lockedAt := none } else x)
          (if ((batchPhase1 docs jobName batchSize nextScanAt lockDeadline).map
              (fun d => d._id)).contains d._id && stillUnlocked lockDeadline d
            then lockStamp now d else d) = d
        have hnc1 : ¬ ((((batchPhase1 docs jobName batchSize nextScanAt lockDeadline).map
            (fun d => d._id)).contains d._id && stillUnlocked lockDeadline d) = true) := by
          rw [Bool.and_eq_true]
          intro hc
          rw [hcont] at hc
          exact absurd hc.1 (by simp)
        have hnc2 : ¬ ((((batchPhase1 docs jobName batchSize nextScanAt lockDeadline).map
            (fun d => d._id)).contains d._id && !(d.nextRunAt == none)) = true) := by
          rw [Bool.and_eq_true]
          intro hc
          rw [hcont] at hc
          exact absurd hc.1 (by simp)
        rw [if_neg hnc1]
        dsimp only
        rw [if_neg hnc2]
    rw [map_congr_mem _ (fun d => d) docs hpt]
    exact List.map_id' docs

end AgendaFork

namespace AgendaFork

/-- Witness for C2 at a two-document collection of unlocked due jobs. -/
theorem claim_C2_witness :
    ([c6JobA, c6JobB].map (fun d => d._id)).Nodup ∧
    ((batchGetNextJobsToRun [c6JobA, c6JobB] "A" 2 100 (-10) 50).1.length ≤ 2 ∧
     (∀ r ∈ (batchGetNextJobsToRun [c6JobA, c6JobB] "A" 2 100 (-10) 50).1,
        r.name = "A" ∧ r.lockedAt = some 50 ∧
        ∃ o ∈ batchPhase1 [c6JobA, c6JobB] "A" 2 100 (-10),
          r = lockStamp 50 o ∧ jobEligible "A" 100 (-10) o = true ∧
          (o.lockedAt = none ∨ dateLE o.lockedAt (-10) = true)) ∧
     (batchGetNextJobsToRun [c6JobA, c6JobB] "A" 2 100 (-10) 50).1.Sublist
        ((batchPhase1 [c6JobA, c6JobB] "A" 2 100 (-10)).map (lockStamp 50)) ∧
     (batchPhase1 [c6JobA, c6JobB] "A" 2 100 (-10)).length ≤ 2 ∧
     (batchPhase1 [c6JobA, c6JobB] "A" 2 100 (-10)).Pairwise
        (fun a b => sortLT b a = false)) :=
  ⟨by decide, claim_C2_batchClaim [c6JobA, c6JobB] "A" 2 100 (-10) 50 _ _ (by decide) rfl⟩

/-- Witness for the amended C8 at a one-document unlocked collection. -/
theorem claim_C8_witness :
    ([c9Doc].map (fun d => d._id)).Nodup ∧
    (∀ d ∈ [c9Doc], d.lockedAt = none) ∧
    unlockJobs (batchGetNextJobsToRun [c9Doc] "C" 2 100 (-10) 50).2
        ((batchGetNextJobsToRun [c9Doc] "C" 2 100 (-10) 50).1.map (fun d => d._id)) = [c9Doc] :=
  ⟨by decide, by decide,
    claim_C8_claimRelease [c9Doc] "C" 2 100 (-10) 50 _ _ (by decide) (by decide) rfl⟩

/-! ## Dual array+map tracking (claim C10) -/

theorem hasKey_iff {α : Type} (mp : List (Nat × α)) (i : Nat) :
    hasKey mp i = true ↔ ∃ p ∈ mp, p.1 = i := by
  simp [hasKey, List.any_eq_true]

theorem eraseKey_map_snd {α : Type} (getId : α → Option Nat) (i : Nat) :
    ∀ (mp : List (Nat × α)), (∀ p ∈ mp, getId p.2 = some p.1) →
      (mp.map (fun p => p.1)).Nodup →
      (mp.filter (fun p => !(p.1 == i))).map (fun p => p.2) =
        (mp.map (fun p => p.2)).eraseP (fun x => getId x == some i) := by
  intro mp
  induction mp with
  | nil => intro _ _; rfl
  | cons hd rest ih =>
    intro hkeys hnd
    obtain ⟨k, v⟩ := hd
    have hv : getId v = some k := hkeys (k, v) (List.mem_cons_self _ _)
    rw [List.map_cons, List.nodup_cons] at hnd
    obtain ⟨hknotin, hnd'⟩ := hnd
    by_cases hk : k = i
    · have hfh : (!((k, v).1 == i)) = false := by simp [hk]
      have heh : (getId (k, v).2 == some i) = true := by simp [hv, hk]
      rw [List.filter_cons, List.map_cons, List.eraseP_cons]
      rw [hfh, heh]
      simp only [Bool.false_eq_true, if_false, cond_true]
      have hrest : rest.filter (fun p => !(p.1 == i)) = rest := by
        rw [List.filter_eq_self]
        intro p hp
        have hpne : p.1 ≠ i := by
          intro hcon
          exact hknotin (List.mem_map.mpr ⟨p, hp, by simp [hcon, hk]⟩)
        simp [hpne]
      rw [hrest]
    · have hfh : (!((k, v).1 == i)) = true := by simp [hk]
      have heh : (getId (k, v).2 == some i) = false := by simp [hv, hk]
      rw [List.filter_cons, List.map_cons, List.eraseP_cons]
      rw [hfh, heh]
      simp only [if_true, cond_false]
      rw [List.map_cons, ih (fun p hp => hkeys p (List.mem_cons_of_mem _ hp)) hnd']

/-- Claim C10: the add/remove operations on the dual array+map collections
preserve consistency (array equals the map's value column, entries keyed by
their own ids, no id twice); adding a job whose id is already present leaves
both structures unchanged; removing returns true iff the id was present and
then deletes it from both the map and the array. -/
theorem claim_C10_trackedConsistency {α : Type} (getId : α → Option Nat)
    (t : Tracked α) (j : α) (hinv : TrackedInv getId t) :
    TrackedInv getId (addTracked getId t j) ∧
    TrackedInv getId (removeTracked getId t j).1 ∧
    (∀ i, getId j = some i → hasKey t.mp i = true → addTracked getId t j = t) ∧
    ((removeTracked getId t j).2 = true ↔ ∃ i, getId j = some i ∧ hasKey t.mp i = true) ∧
    (∀ i, getId j = some i → (removeTracked getId t j).2 = true →
      hasKey (removeTracked getId t j).1.mp i = false ∧
      ∀ x ∈ (removeTracked getId t j).1.arr, getId x ≠ some i) := by
  obtain ⟨harr, hkeys, hnd⟩ := hinv
  have hremInv : TrackedInv getId (removeTracked getId t j).1 := by
    unfold removeTracked
    cases hgj : getId j with
    | none => exact ⟨harr, hkeys, hnd⟩
    | some i =>
      dsimp only
      by_cases hk : hasKey t.mp i = true
      · rw [if_pos hk]
        refine ⟨?_, ?_, ?_⟩
        · dsimp only
          rw [harr]
          exact (eraseKey_map_snd getId i t.mp hkeys hnd).symm
        · intro p hp
          exact hkeys p (List.mem_filter.mp hp).1
        · exact ((List.filter_sublist _).map _).nodup hnd
      · rw [if_neg hk]
        exact ⟨harr, hkeys, hnd⟩
  refine ⟨?_, hremInv, ?_, ?_, ?_⟩
  · unfold addTracked
    cases hgj : getId j with
    | none => exact ⟨harr, hkeys, hnd⟩
    | some i =>
      dsimp only
      by_cases hk : hasKey t.mp i = true
      · rw [if_pos hk]
        exact ⟨harr, hkeys, hnd⟩
      · rw [if_neg hk]
        refine ⟨?_, ?_, ?_⟩
        · dsimp only
          rw [harr, List.map_append]
          rfl
        · intro p hp
          rcases List.mem_append.mp hp with hp' | hp'
          · exact hkeys p hp'
          · obtain rfl : p = (i, j) := List.mem_singleton.mp hp'
            exact hgj
        · dsimp only
          rw [List.map_append]
          rw [List.nodup_append]
          refine ⟨hnd, List.nodup_singleton _, ?_⟩
          intro a ha hb
          have hai : a = i := by simpa using hb
          obtain ⟨p, hp, hpi⟩ := List.mem_map.mp ha
          exact absurd (hasKey_iff t.mp i |>.mpr ⟨p, hp, hpi.trans hai⟩) hk
  · intro i hgj hk
    unfold addTracked
    rw [hgj]
    dsimp only
    rw [if_pos hk]
  · unfold removeTracked
    cases hgj : getId j with
    | none =>
      dsimp only
      constructor
      · intro hcon
        exact absurd hcon (by simp)
      · rintro ⟨i, hcon, _⟩
        exact absurd hcon (by simp)
    | some i =>
      dsimp only
      by_cases hk : hasKey t.mp i = true
      · rw [if_pos hk]
        exact ⟨fun _ => ⟨i, rfl, hk⟩, fun _ => rfl⟩
      · rw [if_neg hk]
        constructor
        · intro hcon
          exact absurd hcon (by simp)
        · rintro ⟨i', hii', hk'⟩
          obtain rfl : i = i' := by simpa using hii'
          exact absurd hk' hk
  · intro i hgj hrem
    have hkey : hasKey t.mp i = true := by
      by_contra hk
      unfold removeTracked at hrem
      rw [hgj] at hrem
      dsimp only at hrem
      rw [if_neg hk] at hrem
      exact absurd hrem (by simp)
    have hmp' : (removeTracked getId t j).1.mp = t.mp.filter (fun p => !(p.1 == i)) := by
      unfold removeTracked
      rw [hgj]
      dsimp only
      rw [if_pos hkey]
    constructor
    · cases hcase : hasKey (removeTracked getId t j).1.mp i with
      | false => rfl
      | true =>
        obtain ⟨p, hp, hpi⟩ := (hasKey_iff _ i).mp hcase
        rw [hmp'] at hp
        have := (List.mem_filter.mp hp).2
        rw [hpi] at this
        simp at this
    · intro x hx
      obtain ⟨hra, hrk, _⟩ := hremInv
      rw [hra, hmp'] at hx
      obtain ⟨p, hp, hpx⟩ := List.mem_map.mp hx
      have hxk : getId x = some p.1 := by
        rw [← hpx]
        exact hrk p (by rw [hmp']; exact hp)
      have hpi : p.1 ≠ i := by
        have := (List.mem_filter.mp hp).2
        simpa using this
      rw [hxk]
      intro hcon
      exact hpi (by simpa using hcon)

/-- Witness for C10 at the empty tracking and a fresh job. -/
theorem claim_C10_witness :
    TrackedInv jobGetId (⟨[], []⟩ : Tracked JobDoc) ∧
    (TrackedInv jobGetId (addTracked jobGetId ⟨[], []⟩ c10Job) ∧
     TrackedInv jobGetId (removeTracked jobGetId ⟨[], []⟩ c10Job).1 ∧
     (∀ i, jobGetId c10Job = some i → hasKey ((⟨[], []⟩ : Tracked JobDoc).mp) i = true →
        addTracked jobGetId ⟨[], []⟩ c10Job = ⟨[], []⟩) ∧
     ((removeTracked jobGetId ⟨[], []⟩ c10Job).2 = true ↔
        ∃ i, jobGetId c10Job = some i ∧ hasKey ((⟨[], []⟩ : Tracked JobDoc).mp) i = true) ∧
     (∀ i, jobGetId c10Job = some i → (removeTracked jobGetId ⟨[], []⟩ c10Job).2 = true →
        hasKey (removeTracked jobGetId ⟨[], []⟩ c10Job).1.mp i = false ∧
        ∀ x ∈ (removeTracked jobGetId ⟨[], []⟩ c10Job).1.arr, jobGetId x ≠ some i)) :=
  ⟨⟨rfl, by simp, by simp⟩,
    claim_C10_trackedConsistency jobGetId ⟨[], []⟩ c10Job ⟨rfl, by simp, by simp⟩⟩

end AgendaFork

namespace AgendaFork

/-! ## Claim C5: the too-far-in-the-future dispatch branch -/

/-- Counterexample to claim C5 as stated: the branch runs on a job locked at
5 in the store, yet afterwards the job's document still carries
`lockedAt = some 5` — the claim's "lockedAt is cleared" is false because the
branch performs no repository call. -/
theorem claim_C5_counterexample :
    tooFarInFuture 10 0 c5Doc = true ∧
    ¬ (∀ st', dispatchTooFarBranch c5St c5Doc = .ok st' →
        ∃ d ∈ st'.db, d._id = c5Doc._id ∧ d.lockedAt = none) := by
  refine ⟨rfl, fun hcl => ?_⟩
  obtain ⟨d, hd, _, hlock⟩ :=
    hcl ⟨[c5Doc], ⟨[], []⟩, [("A", ⟨0, 0, 0⟩)]⟩ rfl
  obtain rfl := List.mem_singleton.mp hd
  exact absurd hlock (by decide)

/-- Claim C5 (amended): when the selected job's `nextRunAt` is more than
`processEvery` past `now`, the Processor removes the job from the
`lockedJobs` bookkeeping and decrements `jobStatus[name].locked` (raising
the invariant error when the job is not tracked) — but it performs no
repository call, so the store, including the job's own `lockedAt`, is left
untouched. -/
theorem claim_C5_tooFarBranch (st : DispatchState) (job : JobDoc) :
    ((removeTracked jobGetId st.lockedJobs job).2 = true →
      dispatchTooFarBranch st job = .ok { st with
        lockedJobs := (removeTracked jobGetId st.lockedJobs job).1,
        jobStatus := updateStatus st.jobStatus job.name
          (fun s => { s with locked := s.locked - 1 }) }) ∧
    (∀ st', dispatchTooFarBranch st job = .ok st' →
      st'.db = st.db ∧
      st'.lockedJobs = (removeTracked jobGetId st.lockedJobs job).1 ∧
      st'.jobStatus = updateStatus st.jobStatus job.name
        (fun s => { s with locked := s.locked - 1 })) ∧
    ((removeTracked jobGetId st.lockedJobs job).2 = false →
      dispatchTooFarBranch st job = .error "cannot find job in locked jobs queue?") := by
  refine ⟨fun hrem => ?_, fun st' hst' => ?_, fun hrem => ?_⟩
  · unfold dispatchTooFarBranch
    dsimp only
    rw [hrem, if_neg (by simp)]
  · unfold dispatchTooFarBranch at hst'
    dsimp only at hst'
    cases hremflag : (removeTracked jobGetId st.lockedJobs job).2 with
    | true =>
      rw [hremflag, if_neg (by simp)] at hst'
      injection hst' with h
      rw [← h]
      exact ⟨rfl, rfl, rfl⟩
    | false =>
      rw [hremflag, if_pos (by simp)] at hst'
      exact absurd hst' (by simp)
  · unfold dispatchTooFarBranch
    dsimp only
    rw [hrem, if_pos (by simp)]

/-- Witness for the amended C5 at a state tracking the locked job. -/
theorem claim_C5_witness :
    ((removeTracked jobGetId c5St.lockedJobs c5Doc).2 = true →
      dispatchTooFarBranch c5St c5Doc = .ok { c5St with
        lockedJobs := (removeTracked jobGetId c5St.lockedJobs c5Doc).1,
        jobStatus := updateStatus c5St.jobStatus c5Doc.name
          (fun s => { s with locked := s.locked - 1 }) }) ∧
    (∀ st', dispatchTooFarBranch c5St c5Doc = .ok st' →
      st'.db = c5St.db ∧
      st'.lockedJobs = (removeTracked jobGetId c5St.lockedJobs c5Doc).1 ∧
      st'.jobStatus = updateStatus c5St.jobStatus c5Doc.name
        (fun s => { s with locked := s.locked - 1 })) ∧
    ((removeTracked jobGetId c5St.lockedJobs c5Doc).2 = false →
      dispatchTooFarBranch c5St c5Doc = .error "cannot find job in locked jobs queue?") :=
  claim_C5_tooFarBranch c5St c5Doc

/-! ## Claim C9: lock-on-the-fly clears the whole buffer -/

/-- Claim C9: when the popped claim intent's name fails the `shouldLock`
check — either before the store lock attempt, or on the re-check after a
successful lock — the entire `jobsToLock` buffer is cleared, dropping every
pending claim intent. -/
theorem claim_C9_lockOnTheFlyFlush (defsLockLimit : String → Nat) (totalLockLimit : Nat)
    (now : Int) (interfere : OnTheFlyState → OnTheFlyState) (maxQueueSize : Nat)
    (st : OnTheFlyState) (job : JobDoc)
    (hpop : st.jobsToLock.getLast? = some job)
    (hfill : st.isJobQueueFilling.contains job.name = false) :
    (shouldLock defsLockLimit totalLockLimit st.lockedJobs.arr.length st.jobStatus job.name
        = false →
      ∀ st', lockOnTheFlyStep defsLockLimit totalLockLimit now interfere maxQueueSize st
          = .ok st' →
        st'.jobsToLock = []) ∧
    (∀ resp,
      (lockJobDb st.db job._id job.name now).1 = some resp →
      resp.name = job.name →
      shouldLock defsLockLimit totalLockLimit
        (interfere { st with jobsToLock := st.jobsToLock.dropLast,
                             db := (lockJobDb st.db job._id job.name now).2 }).lockedJobs.arr.length
        (interfere { st with jobsToLock := st.jobsToLock.dropLast,
                             db := (lockJobDb st.db job._id job.name now).2 }).jobStatus
        resp.name = false →
      ∀ st', lockOnTheFlyStep defsLockLimit totalLockLimit now interfere maxQueueSize st
          = .ok st' →
        st'.jobsToLock = []) := by
  constructor
  · intro hsl1 st' hst'
    unfold lockOnTheFlyStep at hst'
    rw [hpop] at hst'
    dsimp only at hst'
    rw [hfill] at hst'
    simp only [Bool.false_eq_true, if_false] at hst'
    rw [hsl1] at hst'
    simp only [Bool.not_false, if_true] at hst'
    injection hst' with h
    rw [← h]
  · intro resp hresp hname hsl2 st' hst'
    unfold lockOnTheFlyStep at hst'
    rw [hpop] at hst'
    dsimp only at hst'
    rw [hfill] at hst'
    simp only [Bool.false_eq_true, if_false] at hst'
    cases hsl1 : shouldLock defsLockLimit totalLockLimit st.lockedJobs.arr.length
        st.jobStatus job.name with
    | false =>
      rw [hsl1] at hst'
      simp only [Bool.not_false, if_true] at hst'
      injection hst' with h
      rw [← h]
    | true =>
      rw [hsl1] at hst'
      simp only [Bool.not_true, Bool.false_eq_true, if_false] at hst'
      rw [hresp] at hst'
      dsimp only at hst'
      rw [if_neg (by simp [hname])] at hst'
      rw [hsl2] at hst'
      simp only [Bool.not_false, if_true] at hst'
      injection hst' with h
      rw [← h]

/-- Witness for C9 at a state whose pending intent's name is at its lock
limit. -/
theorem claim_C9_witness :
    c9St.jobsToLock.getLast? = some c9Doc ∧
    c9St.isJobQueueFilling.contains c9Doc.name = false ∧
    ((shouldLock (fun _ => 1) 0 c9St.lockedJobs.arr.length c9St.jobStatus c9Doc.name = false →
      ∀ st', lockOnTheFlyStep (fun _ => 1) 0 0 id 100 c9St = .ok st' →
        st'.jobsToLock = []) ∧
    (∀ resp,
      (lockJobDb c9St.db c9Doc._id c9Doc.name 0).1 = some resp →
      resp.name = c9Doc.name →
      shouldLock (fun _ => 1) 0
        (id { c9St with jobsToLock := c9St.jobsToLock.dropLast,
                        db := (lockJobDb c9St.db c9Doc._id c9Doc.name 0).2 }).lockedJobs.arr.length
        (id { c9St with jobsToLock := c9St.jobsToLock.dropLast,
                        db := (lockJobDb c9St.db c9Doc._id c9Doc.name 0).2 }).jobStatus
        resp.name = false →
      ∀ st', lockOnTheFlyStep (fun _ => 1) 0 0 id 100 c9St = .ok st' →
        st'.jobsToLock = [])) :=
  ⟨rfl, rfl, claim_C9_lockOnTheFlyFlush (fun _ => 1) 0 0 id 100 c9St c9Doc rfl rfl⟩

end AgendaFork
